import Mathlib

/-! Pattern database construction (`planopt_heuristics/pdb.cc`).

A shallow embedding of `PatternDatabase::PatternDatabase` and
`PatternDatabase::lookup_distance`, followed by a verification of the
backward uniform-cost search that fills the distance table.

Conventions of the embedding:

* `int` values (state values, operator costs, distances) are mathematical
  integers; the one arithmetic operation of the source, the sum
  `current_state_distance + operator_.cost`, is wrapped to 32 bits by `wrap32`.
* indices (`variable_id`, hash indices of states) are natural numbers.
* `vector` accesses are checked: an access outside the vector makes the
  embedding stop with `Run.fault` (the source has undefined behaviour there).
* the loop carries a bound on its iterations that is never reached
  (`PatternDatabase_ne_timeout`), so a run ends as `Run.finished` or `Run.fault`.
* `std::priority_queue` is a list used as a multiset; `queue_top` returns the
  least pair, which is what `top()` returns under `greater<QueueEntry>`.
* `Projection` (declared in a header that is not part of the sources at hand)
  is a record of the four operations the constructor and the lookup call.
-/

namespace planopt_heuristics

/-- Value of `numeric_limits<int>::max()` for a 32-bit `int`. -/
def INT_MAX : Int := 2147483647

/-- Two-complement wrap of an integer into the range of a 32-bit `int`. -/
def wrap32 (x : Int) : Int := (x + 2147483648) % 4294967296 - 2147483648

/-- Modelled from the spec: the declaration of `TNFOperatorEntry`, whose header is
not among the sources.  An entry of an operator in transition normal form: the
id of a variable, local to the pattern, the required value and the resulting
value; these are the three fields that `pdb.cc` reads. -/
structure TNFOperatorEntry where
  variable_id : Nat
  precondition_value : Int
  effect_value : Int
deriving DecidableEq

/-- Modelled from the spec: the declaration of `TNFOperator`, whose header is not
among the sources.  An operator in transition normal form: the ordered list of
its entries and its integer cost. -/
structure TNFOperator where
  entries : List TNFOperatorEntry
  cost : Int
deriving DecidableEq

/-- Modelled from the spec: the declaration of `TNFState`, whose header is not
among the sources.  A state is the vector of the values of its variables. -/
abbrev TNFState := List Int

/-- Modelled from the spec: the declaration of `TNFTask`, whose header is not
among the sources.  The part of a task in transition normal form that the
constructor reads: `goal_state`, `operators` and the result of
`get_num_states()`. -/
structure TNFTask where
  goal_state : TNFState
  operators : List TNFOperator
  num_states : Nat

/-- Modelled from the spec: the class `Projection`, whose header and
implementation are not among the sources.  Its operations used by the pattern
database are taken as parameters: the projected task, ranking and unranking
of abstract states, and the projection of a state of the original task. -/
structure Projection where
  projected_task : TNFTask
  rank_state : TNFState → Nat
  unrank_state : Nat → TNFState
  project_state : TNFState → TNFState

/-- An entry `(h, i)` of the queue: `h` is a goal distance of the state with index `i`. -/
abbrev QueueEntry := Int × Nat

/-- The order in which `greater<QueueEntry>` lets entries leave the queue:
pairs compare lexicographically. -/
def entry_le (a b : QueueEntry) : Bool :=
  decide (a.1 < b.1) || (decide (a.1 = b.1) && decide (a.2 ≤ b.2))

/-- The entry returned by `queue.top()`: the least entry of the queue. -/
def queue_top : List QueueEntry → Option QueueEntry
  | [] => none
  | e :: rest =>
    match queue_top rest with
    | none => some e
    | some m => if entry_le e m then some e else some m

/-- The inner loop of lines 61-68: does every entry of the operator have its
effect value in `current_state`?  The loop stops at the first entry that has
not.  `none` is an access outside `current_state`. -/
def operator_can_reach_state (current_state : TNFState) :
    List TNFOperatorEntry → Option Bool
  | [] => some true
  | entry :: rest =>
    match current_state[entry.variable_id]? with
    | none => none
    | some v =>
      if v ≠ entry.effect_value then some false
      else operator_can_reach_state current_state rest

/-- The loop of lines 74-76: every entry writes its precondition value into the
copy of the current state.  `none` is a write outside the vector. -/
def predecessor_state (state : TNFState) : List TNFOperatorEntry → Option TNFState
  | [] => some state
  | entry :: rest =>
    if entry.variable_id < state.length then
      predecessor_state (state.set entry.variable_id entry.precondition_value) rest
    else none

/-- The body of the loop over the operators (lines 61-81) for one operator:
the queue after it, or `none` for an access outside a vector. -/
def expand_operator (P : Projection) (distances : List Int)
    (current_state_index : Nat) (current_state_distance : Int)
    (queue : List QueueEntry) (operator_ : TNFOperator) : Option (List QueueEntry) :=
  match operator_can_reach_state (P.unrank_state current_state_index) operator_.entries with
  | none => none
  | some false => some queue
  | some true =>
    match predecessor_state (P.unrank_state current_state_index) operator_.entries with
    | none => none
    | some predecessor =>
      let predecessor_index := P.rank_state predecessor
      let new_distance := wrap32 (current_state_distance + operator_.cost)
      match distances[predecessor_index]? with
      | none => none
      | some old_distance =>
        if new_distance < old_distance then
          some ((new_distance, predecessor_index) :: queue)
        else some queue

/-- The loop over `projected_task.operators` (lines 60-82). -/
def expand_operators (P : Projection) (distances : List Int)
    (current_state_index : Nat) (current_state_distance : Int) :
    List TNFOperator → List QueueEntry → Option (List QueueEntry)
  | [], queue => some queue
  | operator_ :: rest, queue =>
    match expand_operator P distances current_state_index current_state_distance
        queue operator_ with
    | none => none
    | some queue1 =>
      expand_operators P distances current_state_index current_state_distance rest queue1

/-- The variables of the constructor that change in its loop. -/
structure Config where
  distances : List Int
  queue : List QueueEntry
deriving DecidableEq

/-- One iteration of the `while` loop (lines 48-82) that takes the entry
`current_entry` out of the queue.  `none` is an access outside a vector. -/
def process_entry (P : Projection) (c : Config) (current_entry : QueueEntry) :
    Option Config :=
  let queue := c.queue.erase current_entry
  let current_state_distance := current_entry.1
  let current_state_index := current_entry.2
  match c.distances[current_state_index]? with
  | none => none
  | some stored =>
    if current_state_distance ≥ stored then
      some { distances := c.distances, queue := queue }
    else
      let distances := c.distances.set current_state_index current_state_distance
      match expand_operators P distances current_state_index current_state_distance
          P.projected_task.operators queue with
      | none => none
      | some queue1 => some { distances := distances, queue := queue1 }

/-- The state at line 47 when the loop is entered: every slot holds the
sentinel and the queue holds the goal state with distance 0. -/
def initial_config (P : Projection) : Config :=
  { distances := List.replicate P.projected_task.num_states INT_MAX,
    queue := [(0, P.rank_state P.projected_task.goal_state)] }

/-- How a run of the embedded constructor ends. -/
inductive Run where
  | finished (distances : List Int)
  | fault
  | timeout
deriving DecidableEq

/-- The `while` loop of the constructor, with a bound on the number of
iterations. -/
def run_loop (P : Projection) : Nat → Config → Run
  | fuel, c =>
    match queue_top c.queue with
    | none => Run.finished c.distances
    | some current_entry =>
      match fuel with
      | 0 => Run.timeout
      | fuel1 + 1 =>
        match process_entry P c current_entry with
        | none => Run.fault
        | some c1 => run_loop P fuel1 c1

/-- A number of iterations that the loop never exceeds: every iteration either
drops a queue entry or lowers a slot of the table, whose values are 32-bit. -/
def construction_fuel (P : Projection) : Nat :=
  (P.projected_task.operators.length + 1) * P.projected_task.num_states * 4294967296 + 1

/-- The constructor `PatternDatabase::PatternDatabase`: the vector `distances`
it leaves behind. -/
def PatternDatabase (P : Projection) : Run :=
  run_loop P (construction_fuel P) (initial_config P)

/-- The method `PatternDatabase::lookup_distance` on the table `distances`;
`none` is an access outside the table. -/
def lookup_distance (P : Projection) (distances : List Int)
    (original_state : TNFState) : Option Int :=
  let abstract_state := P.project_state original_state
  let index := P.rank_state abstract_state
  distances[index]?

/-! ## The regression graph on indices -/

/-- The constructor, expanding the state with index `j`, lets operator `op`
pass the test of lines 61-68 and computes `i` as `predecessor_index`. -/
def Edge (P : Projection) (j : Nat) (op : TNFOperator) (i : Nat) : Prop :=
  op ∈ P.projected_task.operators ∧
  operator_can_reach_state (P.unrank_state j) op.entries = some true ∧
  ∃ pred, predecessor_state (P.unrank_state j) op.entries = some pred ∧
    P.rank_state pred = i

/-- Index `i` is reached from the index of the goal state by a chain of
regression steps inside the table, whose operator costs add up to `d`. -/
inductive Reach (P : Projection) : Nat → Int → Prop
  | goal : P.rank_state P.projected_task.goal_state < P.projected_task.num_states →
      Reach P (P.rank_state P.projected_task.goal_state) 0
  | step {j i : Nat} {d : Int} {op : TNFOperator} :
      Reach P j d → Edge P j op i → i < P.projected_task.num_states →
      Reach P i (d + op.cost)

/-- Slot `i` of the table holds the value `d`, which is not the sentinel. -/
def Finite (t : List Int) (i : Nat) (d : Int) : Prop :=
  t[i]? = some d ∧ d ≠ INT_MAX

/-! ## Forward application of operators -/

/-- Forward application as the claims define it: an operator is applicable in
`s` iff `s` has the precondition value of every entry at the entry's variable. -/
def applicable (op : TNFOperator) (s : TNFState) : Prop :=
  ∀ e ∈ op.entries, s[e.variable_id]? = some e.precondition_value

instance (op : TNFOperator) (s : TNFState) : Decidable (applicable op s) := by
  unfold applicable; infer_instance

/-- The state `s` with the variable of every entry set to the entry's effect value. -/
def apply_entries (s : TNFState) : List TNFOperatorEntry → TNFState
  | [] => s
  | e :: rest => apply_entries (s.set e.variable_id e.effect_value) rest

/-- The result of applying an operator in `s`: the state `s` with the variable
of every entry set to the entry's effect value. -/
def apply_operator (op : TNFOperator) (s : TNFState) : TNFState :=
  apply_entries s op.entries

/-- The state reached from `s` by applying the operators of `plan` in turn;
`none` when one of them is not applicable where it is applied. -/
def execute_plan : TNFState → List TNFOperator → Option TNFState
  | s, [] => some s
  | s, op :: rest =>
    if applicable op s then execute_plan (apply_operator op s) rest else none

/-- The cost of a plan is the sum of the costs of its operators. -/
def plan_cost (plan : List TNFOperator) : Int :=
  (plan.map (fun op => op.cost)).sum

/-- The sequence `plan` of operators of the projected task transforms `s`
into the goal state. -/
def IsPlan (P : Projection) (s : TNFState) (plan : List TNFOperator) : Prop :=
  (∀ op ∈ plan, op ∈ P.projected_task.operators) ∧
  execute_plan s plan = some P.projected_task.goal_state

/-! ## The original task and its abstraction -/

/-- The sequence `plan` of the operators `ops` of the original task leads from
the state `s` to a goal state of the original task. -/
def IsOriginalPlan (ops : List TNFOperator) (is_goal : TNFState → Bool)
    (s : TNFState) (plan : List TNFOperator) : Prop :=
  (∀ op ∈ plan, op ∈ ops) ∧ ∃ s1, execute_plan s plan = some s1 ∧ is_goal s1 = true

/-- The projection is an abstraction of the original task with operators `ops`
and goal states `is_goal`: goal states project to the abstract goal state, and
an original operator applied in `s` either has a projected operator of at most
its cost that is applicable in the projection of `s` and yields the projection
of the result, or leaves the projection unchanged. -/
def IsAbstraction (P : Projection) (ops : List TNFOperator)
    (is_goal : TNFState → Bool) : Prop :=
  (∀ s, is_goal s = true → P.project_state s = P.projected_task.goal_state) ∧
  ∀ op ∈ ops, ∀ s, applicable op s →
    (∃ op1 ∈ P.projected_task.operators, op1.cost ≤ op.cost ∧
      applicable op1 (P.project_state s) ∧
      apply_operator op1 (P.project_state s) = P.project_state (apply_operator op s)) ∨
    P.project_state s = P.project_state (apply_operator op s)

/-! ## Preconditions on the projected task -/

/-- The functions `rank_state` and `unrank_state` are mutual inverses on
`[0, num_states)`: every index of the table is the rank of its state, and every
state whose rank lies inside the table is the state of its rank.  The states
with a rank inside the table are the abstract states. -/
def MutualInverses (P : Projection) : Prop :=
  (∀ i, i < P.projected_task.num_states → P.rank_state (P.unrank_state i) = i) ∧
  (∀ s, P.rank_state s < P.projected_task.num_states →
    P.unrank_state (P.rank_state s) = s)

/-- Every operator cost is at least 0. -/
def NonnegativeCosts (P : Projection) : Prop :=
  ∀ op ∈ P.projected_task.operators, 0 ≤ op.cost

/-- The entries of each operator have pairwise distinct variable ids. -/
def DistinctVariables (P : Projection) : Prop :=
  ∀ op ∈ P.projected_task.operators,
    (op.entries.map (fun e => e.variable_id)).Nodup

/-- The product of `num_states` and any operator cost is below `2^31 - 1`. -/
def CostBound (P : Projection) : Prop :=
  ∀ op ∈ P.projected_task.operators,
    (P.projected_task.num_states : Int) * op.cost < INT_MAX

/-! ## The loop with an arbitrary choice among the entries of least distance -/

/-- One iteration of the loop that removes some entry of least distance. -/
def Step (P : Projection) (c c1 : Config) : Prop :=
  ∃ e ∈ c.queue, (∀ e1 ∈ c.queue, e.1 ≤ e1.1) ∧ process_entry P c e = some c1

/-- Zero or more iterations of the loop. -/
inductive Steps (P : Projection) : Config → Config → Prop
  | refl (c : Config) : Steps P c c
  | tail {c c1 c2 : Config} : Steps P c c1 → Step P c1 c2 → Steps P c c2

/-- A complete run of the loop from the initial state to an empty queue. -/
def CompleteRun (P : Projection) (c : Config) : Prop :=
  Steps P (initial_config P) c ∧ c.queue = []

/-! ## Invariant of the loop -/

/-- The invariant of the loop for non-negative costs bounded by `C`, where `K`
slots of the table have been written. -/
structure Inv (P : Projection) (C : Int) (K : Nat) (c : Config) : Prop where
  len : c.distances.length = P.projected_task.num_states
  cnt : K + c.distances.count INT_MAX = P.projected_task.num_states
  trange : ∀ i d, Finite c.distances i d → 0 ≤ d ∧ d + C ≤ K * C
  qrange : ∀ e ∈ c.queue, 0 ≤ e.1 ∧ e.1 ≤ K * C
  exact : ∀ i d, Finite c.distances i d →
    Reach P i d ∧ ∀ d1, Reach P i d1 → d ≤ d1
  mono : ∀ i d, Finite c.distances i d → ∀ e ∈ c.queue, d ≤ e.1
  goal : (∃ d, Finite c.distances (P.rank_state P.projected_task.goal_state) d) ∨
    ((0 : Int), P.rank_state P.projected_task.goal_state) ∈ c.queue
  closed : ∀ j dj, Finite c.distances j dj → ∀ op i, Edge P j op i →
    ∃ di, c.distances[i]? = some di ∧
      (di ≤ dj + op.cost ∨ (dj + op.cost, i) ∈ c.queue)
  parent : ∀ i d, Finite c.distances i d →
    i ≠ P.rank_state P.projected_task.goal_state →
    ∃ j op dj, Edge P j op i ∧ Finite c.distances j dj ∧ d = dj + op.cost
  qparent : ∀ e ∈ c.queue,
    e = ((0 : Int), P.rank_state P.projected_task.goal_state) ∨
    ∃ j op dj, Edge P j op e.2 ∧ Finite c.distances j dj ∧ e.1 = dj + op.cost

/-- The state `s` after every entry, in the order of the entries, has written
the value `f entry` to its variable. -/
def write_entries (f : TNFOperatorEntry → Int) : TNFState → List TNFOperatorEntry → TNFState
  | s, [] => s
  | s, e :: rest => write_entries f (s.set e.variable_id (f e)) rest

/-- The state obtained from `s` by setting the variable of every entry of the
operator to the entry's precondition value. -/
def regress_operator (op : TNFOperator) (s : TNFState) : TNFState :=
  write_entries (fun e => e.precondition_value) s op.entries

/-- The operator costs lie between 0 and `C`, and `num_states * C` is below
`numeric_limits<int>::max()`. -/
def CostsWithin (P : Projection) (C : Int) : Prop :=
  0 ≤ C ∧ (∀ op ∈ P.projected_task.operators, 0 ≤ op.cost ∧ op.cost ≤ C) ∧
  (P.projected_task.num_states : Int) * C < INT_MAX

/-- The invariant of the loop that needs no condition on the costs: written
slots and queue entries belong to indices reached by regression steps. -/
structure InvReach (P : Projection) (c : Config) : Prop where
  len : c.distances.length = P.projected_task.num_states
  slot : ∀ i d, Finite c.distances i d → ∃ p, Reach P i p
  entry : ∀ e ∈ c.queue, e.2 < P.projected_task.num_states → ∃ p, Reach P e.2 p

/-! ## Measures for the termination of the loop -/

/-- The sum of the distances of the slots from the least 32-bit value. -/
def weight (t : List Int) : Nat :=
  (t.map (fun x => (x + 2147483648).toNat)).sum

/-- A quantity that every iteration of the loop lowers. -/
def potential (P : Projection) (c : Config) : Nat :=
  c.queue.length + (P.projected_task.operators.length + 1) * weight c.distances

/-- All distances of the table and of the queue are 32-bit values. -/
def InRange (c : Config) : Prop :=
  (∀ x ∈ c.distances, -2147483648 ≤ x ∧ x ≤ INT_MAX) ∧
  (∀ e ∈ c.queue, -2147483648 ≤ e.1 ∧ e.1 ≤ INT_MAX)

/-- No vector access of the constructor leaves its vector: the goal state has
an index inside the table, and for every index inside the table the test of an
operator reads inside the state and the predecessor has an index inside the
table. -/
def FaultFree (P : Projection) : Prop :=
  P.rank_state P.projected_task.goal_state < P.projected_task.num_states ∧
  ∀ i, i < P.projected_task.num_states → ∀ op ∈ P.projected_task.operators,
    (∃ b, operator_can_reach_state (P.unrank_state i) op.entries = some b) ∧
    ∀ pred, operator_can_reach_state (P.unrank_state i) op.entries = some true →
      predecessor_state (P.unrank_state i) op.entries = some pred →
      P.rank_state pred < P.projected_task.num_states

/-- The table has `num_states` slots and every queue entry has an index inside it. -/
def Bounded (P : Projection) (c : Config) : Prop :=
  c.distances.length = P.projected_task.num_states ∧
  ∀ e ∈ c.queue, e.2 < P.projected_task.num_states

/-! ## Traces of the loop -/

/-- One execution of line 56: the slot that is written, the value it held and
the value it receives. -/
structure WriteEvent where
  index : Nat
  old_value : Int
  new_value : Int
deriving DecidableEq

/-- The execution of line 56, if any, in the iteration that takes
`current_entry` out of the queue: the entry is written unless line 53 discards
it. -/
def iteration_writes (c : Config) (current_entry : QueueEntry) : List WriteEvent :=
  match c.distances[current_entry.2]? with
  | none => []
  | some stored =>
    if current_entry.1 ≥ stored then []
    else [{ index := current_entry.2, old_value := stored, new_value := current_entry.1 }]

/-- The executions of line 56 over a run of the loop, in the order in which
they happen. -/
def write_trace (P : Projection) : Nat → Config → List WriteEvent
  | fuel, c =>
    match queue_top c.queue with
    | none => []
    | some current_entry =>
      match fuel with
      | 0 => []
      | fuel1 + 1 =>
        iteration_writes c current_entry ++
          (match process_entry P c current_entry with
           | none => []
           | some c1 => write_trace P fuel1 c1)

/-- The executions of line 56 over the run of the constructor. -/
def constructor_writes (P : Projection) : List WriteEvent :=
  write_trace P (construction_fuel P) (initial_config P)

/-- One evaluation of the sum of line 78: its two addends and the slot
`distances[current_state_index]` at that moment. -/
structure SumEvent where
  current_state_distance : Int
  cost : Int
  slot : Option Int
deriving DecidableEq

/-- The evaluation of line 78 for one operator: it happens when the operator
passes the test of lines 61-68 and its predecessor state has been built. -/
def operator_sums (P : Projection) (distances : List Int)
    (current_state_index : Nat) (current_state_distance : Int)
    (operator_ : TNFOperator) : List SumEvent :=
  match operator_can_reach_state (P.unrank_state current_state_index) operator_.entries with
  | some true =>
    match predecessor_state (P.unrank_state current_state_index) operator_.entries with
    | none => []
    | some _ =>
      [{ current_state_distance := current_state_distance, cost := operator_.cost,
         slot := distances[current_state_index]? }]
  | _ => []

/-- The evaluations of line 78 in the loop over the operators; the loop ends
at the first access outside a vector. -/
def expand_sums (P : Projection) (distances : List Int)
    (current_state_index : Nat) (current_state_distance : Int) :
    List TNFOperator → List QueueEntry → List SumEvent
  | [], _ => []
  | operator_ :: rest, queue =>
    operator_sums P distances current_state_index current_state_distance operator_ ++
      (match expand_operator P distances current_state_index current_state_distance
          queue operator_ with
       | none => []
       | some queue1 =>
         expand_sums P distances current_state_index current_state_distance rest queue1)

/-- The evaluations of line 78 in the iteration that takes `current_entry` out
of the queue. -/
def iteration_sums (P : Projection) (c : Config) (current_entry : QueueEntry) :
    List SumEvent :=
  match c.distances[current_entry.2]? with
  | none => []
  | some stored =>
    if current_entry.1 ≥ stored then []
    else
      expand_sums P (c.distances.set current_entry.2 current_entry.1) current_entry.2
        current_entry.1 P.projected_task.operators (c.queue.erase current_entry)

/-- The evaluations of line 78 over a run of the loop, in the order in which
they happen. -/
def sum_trace (P : Projection) : Nat → Config → List SumEvent
  | fuel, c =>
    match queue_top c.queue with
    | none => []
    | some current_entry =>
      match fuel with
      | 0 => []
      | fuel1 + 1 =>
        iteration_sums P c current_entry ++
          (match process_entry P c current_entry with
           | none => []
           | some c1 => sum_trace P fuel1 c1)

/-! ## Domains of the pattern variables -/

/-- The state has one value for each pattern variable, and each value lies in
the domain `[0, size)` of its variable; `domains` lists the sizes. -/
def in_domain : List Nat → TNFState → Bool
  | [], [] => true
  | size :: sizes, v :: vs => decide (0 ≤ v ∧ v < (size : Int)) && in_domain sizes vs
  | _, _ => false

/-- The id `variable_id` names a variable of the pattern, and the value `v` lies
in the domain of that variable. -/
def value_in_domain (domains : List Nat) (variable_id : Nat) (v : Int) : Prop :=
  ∃ size, domains[variable_id]? = some size ∧ 0 ≤ v ∧ v < (size : Int)

/-- Every entry of every operator names a pattern variable and has its
precondition value and its effect value in the domain of that variable. -/
def EntriesInDomain (P : Projection) (domains : List Nat) : Prop :=
  ∀ op ∈ P.projected_task.operators, ∀ e ∈ op.entries,
    value_in_domain domains e.variable_id e.precondition_value ∧
    value_in_domain domains e.variable_id e.effect_value

/-! ## Two concrete tasks -/

/-- Operator `opA` of the worked example: cost 1, sets `v0` from 0 to 1. -/
def opA : TNFOperator :=
  { entries := [{ variable_id := 0, precondition_value := 0, effect_value := 1 }], cost := 1 }

/-- Operator `opB` of the worked example: cost 2, sets `v1` from 0 to 1. -/
def opB : TNFOperator :=
  { entries := [{ variable_id := 1, precondition_value := 0, effect_value := 1 }], cost := 2 }

/-- The projected task of the worked example: two binary variables, goal `(1,1)`. -/
def worked_example_task : TNFTask :=
  { goal_state := [1, 1], operators := [opA, opB], num_states := 4 }

/-- Mixed-radix rank of a state of two binary variables; any other vector gets
the index 4, which lies outside the table. -/
def binary_rank : TNFState → Nat
  | [a, b] => if (a = 0 ∨ a = 1) ∧ (b = 0 ∨ b = 1) then (a + 2 * b).toNat else 4
  | _ => 4

/-- The state of two binary variables with a given index. -/
def binary_unrank (i : Nat) : TNFState :=
  [((i % 2 : Nat) : Int), (((i / 2) % 2 : Nat) : Int)]

/-- A projection for the worked example; the pattern holds the first two variables
of the original task. -/
def binary_projection : Projection :=
  { projected_task := worked_example_task,
    rank_state := binary_rank,
    unrank_state := binary_unrank,
    project_state := fun s => s.take 2 }

/-- An operator of an original task with three variables: at cost `c` it sets the
third variable, which is not in the pattern, from 0 to 1. -/
def stutter_operator (c : Int) : TNFOperator :=
  { entries := [{ variable_id := 2, precondition_value := 0, effect_value := 1 }], cost := c }

/-- The operators of an original task with three binary variables. -/
def original_operators (c : Int) : List TNFOperator :=
  [stutter_operator c, opA, opB]

/-- The goal test of the original task with three binary variables. -/
def original_goal (s : TNFState) : Bool :=
  decide (s = [1, 1, 1])

/-- The worked example without `opB`: no operator sets `v1`. -/
def one_operator_projection : Projection :=
  { projected_task := { goal_state := [1, 1], operators := [opA], num_states := 4 },
    rank_state := binary_rank,
    unrank_state := binary_unrank,
    project_state := fun s => s.take 2 }

/-- A chain of two operators of cost `1610612736` over one variable with three
values: the sum of the two costs does not fit into a 32-bit `int`. -/
def overflow_projection : Projection :=
  { projected_task :=
      { goal_state := [2],
        operators :=
          [{ entries := [{ variable_id := 0, precondition_value := 1, effect_value := 2 }],
             cost := 1610612736 },
           { entries := [{ variable_id := 0, precondition_value := 0, effect_value := 1 }],
             cost := 1610612736 }],
        num_states := 3 },
    rank_state := fun s =>
      match s with
      | [a] => if 0 ≤ a ∧ a < 3 then a.toNat else 3
      | _ => 3,
    unrank_state := fun i => [(i : Int)],
    project_state := fun s => s.take 1 }

/-! # Verification -/

theorem wrap32_eq {x : Int} (h0 : 0 ≤ x) (h1 : x < INT_MAX) : wrap32 x = x := by
  unfold wrap32
  unfold INT_MAX at h1
  omega

theorem wrap32_range (x : Int) : -2147483648 ≤ wrap32 x ∧ wrap32 x ≤ INT_MAX := by
  unfold wrap32 INT_MAX
  omega

theorem queue_top_none {q : List QueueEntry} (h : queue_top q = none) : q = [] := by
  cases q with
  | nil => rfl
  | cons e rest =>
    unfold queue_top at h
    split at h
    · simp at h
    · split at h <;> simp at h

theorem queue_top_mem {q : List QueueEntry} {e : QueueEntry} (h : queue_top q = some e) :
    e ∈ q := by
  induction q generalizing e with
  | nil => simp [queue_top] at h
  | cons a rest ih =>
    unfold queue_top at h
    split at h
    · simp at h; simp [h]
    · rename_i m hm
      split at h
      · simp at h; simp [h]
      · simp at h; subst h; exact List.mem_cons_of_mem _ (ih hm)

theorem queue_top_least {q : List QueueEntry} {e : QueueEntry} (h : queue_top q = some e) :
    ∀ e1 ∈ q, e.1 ≤ e1.1 := by
  induction q generalizing e with
  | nil => simp
  | cons a rest ih =>
    unfold queue_top at h
    split at h
    · rename_i hn
      simp at h; subst h
      have := queue_top_none hn
      subst this
      simp
    · rename_i m hm
      have ihm := ih hm
      split at h
      · rename_i hle
        simp at h; subst h
        intro e1 he1
        rcases List.mem_cons.1 he1 with rfl | hr
        · exact le_refl _
        · have := ihm e1 hr
          simp [entry_le] at hle
          omega
      · rename_i hle
        simp at h; subst h
        intro e1 he1
        rcases List.mem_cons.1 he1 with rfl | hr
        · simp [entry_le] at hle
          omega
        · exact ihm e1 hr

theorem expand_operator_spec {P : Projection} {t : List Int} {i : Nat} {d : Int}
    {q q1 : List QueueEntry} {op : TNFOperator}
    (h : expand_operator P t i d q op = some q1) :
    (operator_can_reach_state (P.unrank_state i) op.entries = some false ∧ q1 = q) ∨
    (operator_can_reach_state (P.unrank_state i) op.entries = some true ∧
      ∃ pred old, predecessor_state (P.unrank_state i) op.entries = some pred ∧
        t[P.rank_state pred]? = some old ∧
        q1 = if wrap32 (d + op.cost) < old then
          (wrap32 (d + op.cost), P.rank_state pred) :: q else q) := by
  unfold expand_operator at h
  split at h
  · simp at h
  · left; simp_all
  · right
    rename_i htest
    refine ⟨htest, ?_⟩
    split at h
    · simp at h
    · rename_i pred hpred
      simp only at h
      split at h
      · simp at h
      · rename_i old hold
        refine ⟨pred, old, hpred, hold, ?_⟩
        split at h
        · rename_i hlt
          rw [if_pos hlt]
          exact (Option.some.inj h).symm
        · rename_i hlt
          rw [if_neg hlt]
          exact (Option.some.inj h).symm

theorem expand_operators_sub {P : Projection} {t : List Int} {i : Nat} {d : Int}
    {ops : List TNFOperator} {q q1 : List QueueEntry}
    (h : expand_operators P t i d ops q = some q1) : ∀ e ∈ q, e ∈ q1 := by
  induction ops generalizing q with
  | nil =>
    simp [expand_operators] at h
    subst h
    exact fun e he => he
  | cons op rest ih =>
    unfold expand_operators at h
    split at h
    · simp at h
    · rename_i q2 hq2
      intro e he
      apply ih h
      rcases expand_operator_spec hq2 with ⟨_, rfl⟩ | ⟨_, pred, old, _, _, rfl⟩
      · exact he
      · split
        · exact List.mem_cons_of_mem _ he
        · exact he

theorem expand_operators_length {P : Projection} {t : List Int} {i : Nat} {d : Int}
    {ops : List TNFOperator} {q q1 : List QueueEntry}
    (h : expand_operators P t i d ops q = some q1) :
    q1.length ≤ q.length + ops.length := by
  induction ops generalizing q with
  | nil =>
    simp [expand_operators] at h
    subst h
    simp
  | cons op rest ih =>
    unfold expand_operators at h
    split at h
    · simp at h
    · rename_i q2 hq2
      have h2 := ih h
      have h3 : q2.length ≤ q.length + 1 := by
        rcases expand_operator_spec hq2 with ⟨_, rfl⟩ | ⟨_, pred, old, _, _, rfl⟩
        · omega
        · split <;> simp
      simp only [List.length_cons]
      omega

/-- Every entry that the loop over the operators adds to the queue comes from
an operator that passes the test, and undercuts the slot of its index. -/
theorem expand_operators_mem {P : Projection} {t : List Int} {i : Nat} {d : Int}
    {ops : List TNFOperator} {q q1 : List QueueEntry}
    (h : expand_operators P t i d ops q = some q1) :
    ∀ e ∈ q1, e ∈ q ∨ ∃ op ∈ ops, ∃ pred old,
      operator_can_reach_state (P.unrank_state i) op.entries = some true ∧
      predecessor_state (P.unrank_state i) op.entries = some pred ∧
      t[P.rank_state pred]? = some old ∧
      wrap32 (d + op.cost) < old ∧
      e = (wrap32 (d + op.cost), P.rank_state pred) := by
  induction ops generalizing q with
  | nil =>
    simp [expand_operators] at h
    subst h
    exact fun e he => Or.inl he
  | cons op rest ih =>
    unfold expand_operators at h
    split at h
    · simp at h
    · rename_i q2 hq2
      intro e he
      rcases ih h e he with h2 | ⟨op1, hop1, pred, old, h3⟩
      · rcases expand_operator_spec hq2 with ⟨_, rfl⟩ | ⟨htest, pred, old, hpred, hold, rfl⟩
        · exact Or.inl h2
        · split at h2
          · rename_i hlt
            rcases List.mem_cons.1 h2 with rfl | h4
            · exact Or.inr ⟨op, List.mem_cons_self _ _, pred, old, htest, hpred, hold, hlt, rfl⟩
            · exact Or.inl h4
          · exact Or.inl h2
      · exact Or.inr ⟨op1, List.mem_cons_of_mem _ hop1, pred, old, h3⟩

/-- The loop over the operators reads the slot of the predecessor of every
operator that passes the test, and adds an entry when the new distance
undercuts it. -/
theorem expand_operators_push {P : Projection} {t : List Int} {i : Nat} {d : Int}
    {ops : List TNFOperator} {q q1 : List QueueEntry}
    (h : expand_operators P t i d ops q = some q1) :
    ∀ op ∈ ops, operator_can_reach_state (P.unrank_state i) op.entries = some true →
      ∃ pred old, predecessor_state (P.unrank_state i) op.entries = some pred ∧
        t[P.rank_state pred]? = some old ∧
        (wrap32 (d + op.cost) < old →
          (wrap32 (d + op.cost), P.rank_state pred) ∈ q1) := by
  induction ops generalizing q with
  | nil => simp
  | cons op rest ih =>
    unfold expand_operators at h
    split at h
    · simp at h
    · rename_i q2 hq2
      intro op1 hop1 htest1
      rcases List.mem_cons.1 hop1 with rfl | hrest
      · rcases expand_operator_spec hq2 with ⟨hf, _⟩ | ⟨_, pred, old, hpred, hold, rfl⟩
        · rw [hf] at htest1
          simp at htest1
        · refine ⟨pred, old, hpred, hold, fun hlt => ?_⟩
          apply expand_operators_sub h
          rw [if_pos hlt]
          exact List.mem_cons_self _ _
      · exact ih h op1 hrest htest1

theorem process_entry_cases {P : Projection} {c c1 : Config} {e : QueueEntry}
    (h : process_entry P c e = some c1) :
    ∃ stored, c.distances[e.2]? = some stored ∧
      ((stored ≤ e.1 ∧ c1 = { distances := c.distances, queue := c.queue.erase e }) ∨
       (e.1 < stored ∧ c1.distances = c.distances.set e.2 e.1 ∧
         expand_operators P (c.distances.set e.2 e.1) e.2 e.1
           P.projected_task.operators (c.queue.erase e) = some c1.queue)) := by
  unfold process_entry at h
  simp only at h
  split at h
  · simp at h
  · rename_i stored hs
    refine ⟨stored, hs, ?_⟩
    split at h
    · left
      rename_i hge
      exact ⟨hge, (Option.some.inj h).symm⟩
    · right
      rename_i hge
      split at h
      · simp at h
      · rename_i q1 hq1
        have h1 := Option.some.inj h
        subst h1
        exact ⟨by omega, rfl, hq1⟩

theorem Finite_set_ne {t : List Int} {i k : Nat} {d x : Int} (h : k ≠ i) :
    Finite (t.set i d) k x ↔ Finite t k x := by
  unfold Finite
  rw [List.getElem?_set_ne (Ne.symm h)]

theorem Finite_set_self {t : List Int} {i : Nat} {d x : Int} (hi : i < t.length) :
    Finite (t.set i d) i x ↔ (x = d ∧ d ≠ INT_MAX) := by
  unfold Finite
  rw [List.getElem?_set_self hi]
  constructor
  · rintro ⟨h1, h2⟩
    have := Option.some.inj h1
    subst this
    exact ⟨rfl, h2⟩
  · rintro ⟨rfl, h2⟩
    exact ⟨rfl, h2⟩

/-- A finite slot is not the slot that holds the sentinel, so it survives a
write to that slot. -/
theorem Finite_set_of_sentinel {t : List Int} {i j : Nat} {d dj : Int}
    (hi : t[i]? = some INT_MAX) (hj : Finite t j dj) : Finite (t.set i d) j dj := by
  have hne : j ≠ i := by
    rintro rfl
    rw [hj.1] at hi
    exact hj.2 (Option.some.inj hi)
  exact (Finite_set_ne hne).2 hj

theorem getElem?_lt_length {t : List Int} {i : Nat} {d : Int} (h : t[i]? = some d) :
    i < t.length := by
  rcases List.getElem?_eq_some.1 h with ⟨hi, _⟩
  exact hi

theorem count_set_sentinel {t : List Int} {i : Nat} {d : Int}
    (hi : t[i]? = some INT_MAX) (hd : d ≠ INT_MAX) :
    (t.set i d).count INT_MAX + 1 = t.count INT_MAX := by
  induction t generalizing i with
  | nil => simp at hi
  | cons a rest ih =>
    cases i with
    | zero =>
      simp at hi
      subst hi
      simp [List.count_cons, hd]
    | succ k =>
      simp at hi
      have := ih hi
      simp only [List.set_cons_succ, List.count_cons]
      omega

theorem Inv.bound {P : Projection} {C : Int} {K : Nat} {c : Config}
    (hinv : Inv P C K c) (hc : CostsWithin P C) : (K : Int) * C < INT_MAX := by
  have h1 : (K : Int) ≤ (P.projected_task.num_states : Int) := by
    have := hinv.cnt
    omega
  have h2 := mul_le_mul_of_nonneg_right h1 hc.1
  have h3 := hc.2.2
  omega

/-- Every chain of regression steps from the goal either ends in a written
slot whose value it does not undercut, or is not cheaper than some entry of
the queue. -/
theorem Inv.frontier {P : Projection} {C : Int} {K : Nat} {c : Config}
    (hinv : Inv P C K c) (hc : CostsWithin P C) {v : Nat} {p : Int}
    (hr : Reach P v p) :
    (∃ d, Finite c.distances v d ∧ d ≤ p) ∨ (∃ e ∈ c.queue, e.1 ≤ p) := by
  induction hr with
  | goal hg =>
    rcases hinv.goal with ⟨d, hF⟩ | hq
    · exact Or.inl ⟨d, hF, (hinv.exact _ _ hF).2 0 (Reach.goal hg)⟩
    · exact Or.inr ⟨_, hq, le_refl _⟩
  | step hr1 hedge hi ih =>
    rename_i j i d op
    have hop := hc.2.1 op hedge.1
    rcases ih with ⟨dj, hFj, hle⟩ | ⟨e, he, hle⟩
    · rcases hinv.closed j dj hFj op i hedge with ⟨di, hdi, h1 | h1⟩
      · left
        have hb := hinv.bound hc
        have hr := hinv.trange j dj hFj
        refine ⟨di, ⟨hdi, ?_⟩, by omega⟩
        unfold INT_MAX at *
        omega
      · right
        exact ⟨_, h1, by simp only; omega⟩
    · right
      exact ⟨e, he, by omega⟩

/-- The invariant survives an iteration that discards its entry (line 54). -/
theorem Inv.stale {P : Projection} {C : Int} {K : Nat} {c : Config}
    (hinv : Inv P C K c) {e : QueueEntry} {stored : Int}
    (hs : c.distances[e.2]? = some stored) (hle : stored ≤ e.1)
    (hb : (K : Int) * C < INT_MAX) (he : e ∈ c.queue) :
    Inv P C K { distances := c.distances, queue := c.queue.erase e } := by
  have hsF : Finite c.distances e.2 stored := by
    refine ⟨hs, ?_⟩
    have := (hinv.qrange e he).2
    omega
  refine ⟨hinv.len, hinv.cnt, hinv.trange, ?_, hinv.exact, ?_, ?_, ?_, hinv.parent, ?_⟩
  · exact fun e1 h1 => hinv.qrange e1 (List.mem_of_mem_erase h1)
  · exact fun i d hF e1 h1 => hinv.mono i d hF e1 (List.mem_of_mem_erase h1)
  · rcases hinv.goal with h | h
    · exact Or.inl h
    · by_cases heq : ((0 : Int), P.rank_state P.projected_task.goal_state) = e
      · left
        subst heq
        exact ⟨stored, hsF⟩
      · exact Or.inr ((List.mem_erase_of_ne heq).2 h)
  · intro j dj hF op i hedge
    rcases hinv.closed j dj hF op i hedge with ⟨di, hdi, h | h⟩
    · exact ⟨di, hdi, Or.inl h⟩
    · by_cases heq : (dj + op.cost, i) = e
      · subst heq
        simp only at hs hle
        rw [hdi] at hs
        have := Option.some.inj hs
        subst this
        exact ⟨di, hdi, Or.inl hle⟩
      · exact ⟨di, hdi, Or.inr ((List.mem_erase_of_ne heq).2 h)⟩
  · exact fun e1 h1 => hinv.qparent e1 (List.mem_of_mem_erase h1)

/-- The invariant survives an iteration that writes its entry into the table
and expands the state (lines 56-82). -/
theorem Inv.write {P : Projection} {C : Int} {K : Nat} {c : Config}
    (hinv : Inv P C K c) (hc : CostsWithin P C) {e : QueueEntry} {stored : Int}
    {q1 : List QueueEntry} (he : e ∈ c.queue) (hmin : ∀ e1 ∈ c.queue, e.1 ≤ e1.1)
    (hs : c.distances[e.2]? = some stored) (hlt : e.1 < stored)
    (hex : expand_operators P (c.distances.set e.2 e.1) e.2 e.1
      P.projected_task.operators (c.queue.erase e) = some q1) :
    Inv P C (K + 1) { distances := c.distances.set e.2 e.1, queue := q1 } := by
  obtain ⟨d, i⟩ := e
  dsimp only at hmin hs hlt hex ⊢
  have hsent : stored = INT_MAX := by
    by_contra hne
    have := hinv.mono i stored ⟨hs, hne⟩ _ he
    dsimp only at this
    omega
  subst hsent
  have hilen : i < c.distances.length := getElem?_lt_length hs
  have hin : i < P.projected_task.num_states := by
    rw [← hinv.len]
    exact hilen
  have hdq := hinv.qrange _ he
  dsimp only at hdq
  have hb := hinv.bound hc
  have hdne : d ≠ INT_MAX := by omega
  have hcnt : (K + 1) + (c.distances.set i d).count INT_MAX =
      P.projected_task.num_states := by
    have h1 := count_set_sentinel hs hdne
    have h2 := hinv.cnt
    omega
  have hK1 : ((K + 1 : Nat) : Int) * C = K * C + C := by
    push_cast
    ring
  have hb1 : ((K + 1 : Nat) : Int) * C < INT_MAX := by
    have h1 : ((K + 1 : Nat) : Int) ≤ (P.projected_task.num_states : Int) := by omega
    have h2 := mul_le_mul_of_nonneg_right h1 hc.1
    have h3 := hc.2.2
    omega
  have hC0 := hc.1
  have hFi : Finite (c.distances.set i d) i d := (Finite_set_self hilen).2 ⟨rfl, hdne⟩
  have hkeep : ∀ j dj, Finite c.distances j dj → Finite (c.distances.set i d) j dj :=
    fun j dj h => Finite_set_of_sentinel hs h
  have hback : ∀ k x, Finite (c.distances.set i d) k x →
      (k = i ∧ x = d) ∨ (k ≠ i ∧ Finite c.distances k x) := by
    intro k x h
    by_cases hk : k = i
    · subst hk
      exact Or.inl ⟨rfl, ((Finite_set_self hilen).1 h).1⟩
    · exact Or.inr ⟨hk, (Finite_set_ne hk).1 h⟩
  have hnew : ∀ e1 ∈ q1, e1 ∈ c.queue ∨ ∃ op, Edge P i op e1.2 ∧ e1.1 = d + op.cost ∧
      0 ≤ op.cost ∧ op.cost ≤ C := by
    intro e1 h1
    rcases expand_operators_mem hex e1 h1 with
      h2 | ⟨op, hop, pred, old, htest, hpred, hold, hlt2, rfl⟩
    · exact Or.inl (List.mem_of_mem_erase h2)
    · right
      have hcost := hc.2.1 op hop
      refine ⟨op, ⟨hop, htest, pred, hpred, rfl⟩, ?_, hcost⟩
      exact wrap32_eq (by omega) (by omega)
  have hreach : Reach P i d := by
    rcases hinv.qparent _ he with h | ⟨j, op, dj, hedge, hFj, h⟩
    · have h1 := (Prod.mk.injEq _ _ _ _).mp h
      obtain ⟨rfl, rfl⟩ := h1
      exact Reach.goal hin
    · dsimp only at h hedge
      subst h
      exact Reach.step (hinv.exact j dj hFj).1 hedge hin
  refine ⟨?_, hcnt, ?_, ?_, ?_, ?_, ?_, ?_, ?_, ?_⟩
  · -- len
    simp only [List.length_set]
    exact hinv.len
  · -- trange
    intro k x hF
    rcases hback k x hF with ⟨rfl, rfl⟩ | ⟨_, hF1⟩
    · omega
    · have := hinv.trange k x hF1
      omega
  · -- qrange
    intro e1 h1
    rcases hnew e1 h1 with h2 | ⟨op, _, h3, h4, h5⟩
    · have := hinv.qrange e1 h2
      omega
    · omega
  · -- exact
    intro k x hF
    rcases hback k x hF with ⟨rfl, rfl⟩ | ⟨_, hF1⟩
    · refine ⟨hreach, fun d1 hr1 => ?_⟩
      rcases hinv.frontier hc hr1 with ⟨d2, hF2, _⟩ | ⟨e1, h1, h2⟩
      · have h3 := hF2.1
        rw [hs] at h3
        exact absurd (Option.some.inj h3).symm hF2.2
      · have := hmin e1 h1
        omega
    · exact hinv.exact k x hF1
  · -- mono
    intro k x hF e1 h1
    have hxd : x ≤ d := by
      rcases hback k x hF with ⟨rfl, rfl⟩ | ⟨_, hF1⟩
      · exact le_refl _
      · exact hinv.mono k x hF1 _ he
    rcases hnew e1 h1 with h2 | ⟨op, _, h3, h4, h5⟩
    · have := hmin e1 h2
      omega
    · omega
  · -- goal
    rcases hinv.goal with ⟨dg, hFg⟩ | h
    · exact Or.inl ⟨dg, hkeep _ _ hFg⟩
    · by_cases heq : ((0 : Int), P.rank_state P.projected_task.goal_state) = (d, i)
      · have h1 := (Prod.mk.injEq _ _ _ _).mp heq
        obtain ⟨rfl, rfl⟩ := h1
        exact Or.inl ⟨0, hFi⟩
      · exact Or.inr (expand_operators_sub hex _ ((List.mem_erase_of_ne heq).2 h))
  · -- closed
    intro j dj hF op i1 hedge
    rcases hback j dj hF with ⟨rfl, rfl⟩ | ⟨hji, hF1⟩
    · obtain ⟨hop, htest, pred, hpred, hrank⟩ := hedge
      obtain ⟨pred1, old, hpred1, hold, hpush⟩ := expand_operators_push hex op hop htest
      rw [hpred] at hpred1
      have := Option.some.inj hpred1
      subst this
      subst hrank
      have hcost := hc.2.1 op hop
      have hw : wrap32 (dj + op.cost) = dj + op.cost := wrap32_eq (by omega) (by omega)
      rw [hw] at hpush
      refine ⟨old, hold, ?_⟩
      by_cases hlt2 : dj + op.cost < old
      · exact Or.inr (hpush hlt2)
      · exact Or.inl (by omega)
    · rcases hinv.closed j dj hF1 op i1 hedge with ⟨di, hdi, h⟩
      by_cases hi1 : i1 = i
      · subst hi1
        refine ⟨d, List.getElem?_set_self hilen, Or.inl ?_⟩
        rw [hs] at hdi
        have := Option.some.inj hdi
        subst this
        rcases h with h | h
        · omega
        · exact hmin _ h
      · refine ⟨di, by rw [List.getElem?_set_ne (Ne.symm hi1)]; exact hdi, ?_⟩
        rcases h with h | h
        · exact Or.inl h
        · right
          apply expand_operators_sub hex
          refine (List.mem_erase_of_ne ?_).2 h
          intro heq
          exact hi1 ((Prod.mk.injEq _ _ _ _).mp heq).2
  · -- parent
    intro k x hF hk
    rcases hback k x hF with ⟨rfl, rfl⟩ | ⟨_, hF1⟩
    · rcases hinv.qparent _ he with h | ⟨j, op, dj, hedge, hFj, h⟩
      · exact absurd ((Prod.mk.injEq _ _ _ _).mp h).2 hk
      · exact ⟨j, op, dj, hedge, hkeep _ _ hFj, h⟩
    · obtain ⟨j, op, dj, hedge, hFj, h⟩ := hinv.parent k x hF1 hk
      exact ⟨j, op, dj, hedge, hkeep _ _ hFj, h⟩
  · -- qparent
    intro e1 h1
    rcases hnew e1 h1 with h2 | ⟨op, hedge, h3, _⟩
    · rcases hinv.qparent e1 h2 with h | ⟨j, op, dj, hedge, hFj, h⟩
      · exact Or.inl h
      · exact Or.inr ⟨j, op, dj, hedge, hkeep _ _ hFj, h⟩
    · exact Or.inr ⟨i, op, d, hedge, hFi, h3⟩

theorem not_Finite_replicate {n i : Nat} {d : Int} :
    ¬ Finite (List.replicate n INT_MAX) i d := by
  rintro ⟨h1, h2⟩
  rw [List.getElem?_replicate] at h1
  split at h1
  · exact h2 (Option.some.inj h1).symm
  · simp at h1

/-- The invariant holds when the loop is entered. -/
theorem Inv.init (P : Projection) (C : Int) : Inv P C 0 (initial_config P) := by
  unfold initial_config
  refine ⟨?_, ?_, ?_, ?_, ?_, ?_, ?_, ?_, ?_, ?_⟩
  · simp
  · simp [List.count_replicate_self]
  · exact fun i d hF => absurd hF not_Finite_replicate
  · intro e he
    simp only [List.mem_singleton] at he
    subst he
    simp
  · exact fun i d hF => absurd hF not_Finite_replicate
  · exact fun i d hF => absurd hF not_Finite_replicate
  · right
    simp
  · exact fun i d hF => absurd hF not_Finite_replicate
  · exact fun i d hF => absurd hF not_Finite_replicate
  · intro e he
    simp only [List.mem_singleton] at he
    exact Or.inl he

/-- Every iteration of the loop preserves the invariant. -/
theorem Inv.step {P : Projection} {C : Int} {K : Nat} {c c1 : Config}
    (hinv : Inv P C K c) (hc : CostsWithin P C) (hstep : Step P c c1) :
    ∃ K1, Inv P C K1 c1 := by
  obtain ⟨e, he, hmin, hproc⟩ := hstep
  obtain ⟨stored, hs, ⟨hle, rfl⟩ | ⟨hlt, hd, hex⟩⟩ := process_entry_cases hproc
  · exact ⟨K, hinv.stale hs hle (hinv.bound hc) he⟩
  · refine ⟨K + 1, ?_⟩
    have := hinv.write hc he hmin hs hlt hex
    rw [← hd] at this
    exact this

theorem Inv.steps {P : Projection} {C : Int} {c : Config} (hc : CostsWithin P C)
    (hsteps : Steps P (initial_config P) c) : ∃ K, Inv P C K c := by
  induction hsteps with
  | refl => exact ⟨0, Inv.init P C⟩
  | tail _ hstep ih =>
    obtain ⟨K, hinv⟩ := ih
    exact hinv.step hc hstep

/-- Costs that are non-negative and obey the bound of the table lie below a
common bound `C`. -/
theorem costs_within_aux (n : Nat) (ops : List TNFOperator)
    (h0 : ∀ op ∈ ops, 0 ≤ op.cost) (h1 : ∀ op ∈ ops, (n : Int) * op.cost < INT_MAX) :
    ∃ C : Int, 0 ≤ C ∧ (∀ op ∈ ops, 0 ≤ op.cost ∧ op.cost ≤ C) ∧ (n : Int) * C < INT_MAX := by
  induction ops with
  | nil => exact ⟨0, le_refl _, by simp, by simp [INT_MAX]⟩
  | cons a rest ih =>
    obtain ⟨C, hC0, hC1, hC2⟩ := ih (fun op h => h0 op (List.mem_cons_of_mem _ h))
      (fun op h => h1 op (List.mem_cons_of_mem _ h))
    have ha0 := h0 a (List.mem_cons_self _ _)
    have ha1 := h1 a (List.mem_cons_self _ _)
    by_cases hle : a.cost ≤ C
    · refine ⟨C, hC0, ?_, hC2⟩
      intro op hop
      rcases List.mem_cons.1 hop with rfl | h
      · exact ⟨ha0, hle⟩
      · exact hC1 op h
    · refine ⟨a.cost, ha0, ?_, ha1⟩
      intro op hop
      rcases List.mem_cons.1 hop with rfl | h
      · exact ⟨ha0, le_refl _⟩
      · have := hC1 op h
        omega

theorem costs_within {P : Projection} (h0 : NonnegativeCosts P) (h1 : CostBound P) :
    ∃ C, CostsWithin P C :=
  costs_within_aux _ _ h0 h1

/-- A run of the embedded loop that finishes is a run of the loop with an
arbitrary choice of the entry of least distance. -/
theorem run_loop_steps {P : Projection} {fuel : Nat} {c : Config} {t : List Int}
    (h : run_loop P fuel c = Run.finished t) :
    ∃ c1, Steps P c c1 ∧ c1.queue = [] ∧ c1.distances = t := by
  induction fuel generalizing c with
  | zero =>
    unfold run_loop at h
    split at h
    · rename_i hq
      exact ⟨c, Steps.refl c, queue_top_none hq, Run.finished.inj h⟩
    · simp at h
  | succ n ih =>
    unfold run_loop at h
    split at h
    · rename_i hq
      exact ⟨c, Steps.refl c, queue_top_none hq, Run.finished.inj h⟩
    · rename_i e hq
      simp only at h
      split at h
      · simp at h
      · rename_i c2 hproc
        obtain ⟨c1, hsteps, hq1, ht⟩ := ih h
        have hstep : Step P c c2 := ⟨e, queue_top_mem hq, queue_top_least hq, hproc⟩
        refine ⟨c1, ?_, hq1, ht⟩
        clear ih h hq1 ht
        induction hsteps with
        | refl => exact Steps.tail (Steps.refl c) hstep
        | tail _ hs2 ih2 => exact Steps.tail ih2 hs2

theorem PatternDatabase_complete_run {P : Projection} {t : List Int}
    (h : PatternDatabase P = Run.finished t) :
    CompleteRun P { distances := t, queue := [] } := by
  obtain ⟨c1, hsteps, hq, ht⟩ := run_loop_steps h
  obtain ⟨t1, q1⟩ := c1
  simp only at hq ht
  subst hq ht
  exact ⟨hsteps, rfl⟩

/-! ## States and operators -/

theorem write_entries_length (f : TNFOperatorEntry → Int) (s : TNFState)
    (es : List TNFOperatorEntry) : (write_entries f s es).length = s.length := by
  induction es generalizing s with
  | nil => rfl
  | cons e rest ih =>
    unfold write_entries
    rw [ih]
    simp

theorem write_entries_get_notin (f : TNFOperatorEntry → Int) (s : TNFState)
    (es : List TNFOperatorEntry) (k : Nat)
    (hk : k ∉ es.map (fun e => e.variable_id)) :
    (write_entries f s es)[k]? = s[k]? := by
  induction es generalizing s with
  | nil => rfl
  | cons e rest ih =>
    simp only [List.map_cons, List.mem_cons, not_or] at hk
    unfold write_entries
    rw [ih _ hk.2, List.getElem?_set_ne (Ne.symm hk.1)]

theorem write_entries_get_in (f : TNFOperatorEntry → Int) (s : TNFState)
    (es : List TNFOperatorEntry) (hnd : (es.map (fun e => e.variable_id)).Nodup)
    (e : TNFOperatorEntry) (he : e ∈ es) (hlen : e.variable_id < s.length) :
    (write_entries f s es)[e.variable_id]? = some (f e) := by
  induction es generalizing s with
  | nil => simp at he
  | cons a rest ih =>
    simp only [List.map_cons, List.nodup_cons] at hnd
    unfold write_entries
    rcases List.mem_cons.1 he with rfl | hr
    · rw [write_entries_get_notin _ _ _ _ hnd.1]
      exact List.getElem?_set_self hlen
    · exact ih _ hnd.2 hr (by simpa using hlen)

/-- Writing the values `b` and then the values `a` gives back a state that had
the values `a` at the variables of the entries. -/
theorem write_entries_roundtrip (a b : TNFOperatorEntry → Int) (s : TNFState)
    (es : List TNFOperatorEntry) (hnd : (es.map (fun e => e.variable_id)).Nodup)
    (hs : ∀ e ∈ es, s[e.variable_id]? = some (a e)) :
    write_entries a (write_entries b s es) es = s := by
  apply List.ext_getElem?
  intro k
  by_cases hk : k ∈ es.map (fun e => e.variable_id)
  · obtain ⟨e, he, rfl⟩ := List.mem_map.1 hk
    have hlen : e.variable_id < s.length := getElem?_lt_length (hs e he)
    rw [write_entries_get_in a _ es hnd e he (by rw [write_entries_length]; exact hlen)]
    exact (hs e he).symm
  · rw [write_entries_get_notin _ _ _ _ hk, write_entries_get_notin _ _ _ _ hk]

theorem apply_entries_eq (s : TNFState) (es : List TNFOperatorEntry) :
    apply_entries s es = write_entries (fun e => e.effect_value) s es := by
  induction es generalizing s with
  | nil => rfl
  | cons e rest ih =>
    unfold apply_entries write_entries
    exact ih _

theorem predecessor_state_eq {s p : TNFState} {es : List TNFOperatorEntry}
    (h : predecessor_state s es = some p) :
    p = write_entries (fun e => e.precondition_value) s es := by
  induction es generalizing s with
  | nil =>
    unfold predecessor_state at h
    exact (Option.some.inj h).symm
  | cons e rest ih =>
    unfold predecessor_state at h
    split at h
    · unfold write_entries
      exact ih h
    · simp at h

theorem predecessor_state_of_lt {s : TNFState} {es : List TNFOperatorEntry}
    (h : ∀ e ∈ es, e.variable_id < s.length) :
    predecessor_state s es = some (write_entries (fun e => e.precondition_value) s es) := by
  induction es generalizing s with
  | nil => rfl
  | cons e rest ih =>
    unfold predecessor_state write_entries
    rw [if_pos (h e (List.mem_cons_self _ _))]
    apply ih
    intro e1 h1
    simpa using h e1 (List.mem_cons_of_mem _ h1)

/-- The test of lines 61-68 succeeds iff the state has the effect value of
every entry at the entry's variable. -/
theorem operator_can_reach_state_true {s : TNFState} {es : List TNFOperatorEntry} :
    operator_can_reach_state s es = some true ↔
      ∀ e ∈ es, s[e.variable_id]? = some e.effect_value := by
  induction es with
  | nil => simp [operator_can_reach_state]
  | cons e rest ih =>
    unfold operator_can_reach_state
    constructor
    · intro h
      split at h
      · simp at h
      · rename_i v hv
        split at h
        · simp at h
        · rename_i hne
          intro e1 h1
          rcases List.mem_cons.1 h1 with rfl | hr
          · rw [hv]
            simp only [ne_eq, not_not] at hne
            rw [hne]
          · exact ih.1 h e1 hr
    · intro h
      have h0 := h e (List.mem_cons_self _ _)
      rw [h0]
      simp only [ne_eq, not_true_eq_false, if_false]
      exact ih.2 (fun e1 h1 => h e1 (List.mem_cons_of_mem _ h1))

/-- Regression undoes forward application: after an applicable operator with
distinct variables, the constructor's test succeeds and the predecessor it
builds is the state the operator was applied in. -/
theorem regress_apply {op : TNFOperator} {s : TNFState}
    (hnd : (op.entries.map (fun e => e.variable_id)).Nodup) (ha : applicable op s) :
    operator_can_reach_state (apply_operator op s) op.entries = some true ∧
    predecessor_state (apply_operator op s) op.entries = some s := by
  unfold apply_operator
  rw [apply_entries_eq]
  have hlen : ∀ e ∈ op.entries, e.variable_id < s.length :=
    fun e he => getElem?_lt_length (ha e he)
  constructor
  · rw [operator_can_reach_state_true]
    intro e he
    exact write_entries_get_in _ _ _ hnd e he (hlen e he)
  · rw [predecessor_state_of_lt (by
      intro e he
      rw [write_entries_length]
      exact hlen e he)]
    rw [write_entries_roundtrip _ _ s op.entries hnd ha]

/-- Forward application undoes regression: the predecessor the constructor
builds from a state that passes the test is a state in which the operator is
applicable and leads to that state. -/
theorem apply_regress {op : TNFOperator} {s p : TNFState}
    (hnd : (op.entries.map (fun e => e.variable_id)).Nodup)
    (ht : operator_can_reach_state s op.entries = some true)
    (hp : predecessor_state s op.entries = some p) :
    applicable op p ∧ apply_operator op p = s := by
  have hp1 := predecessor_state_eq hp
  subst hp1
  rw [operator_can_reach_state_true] at ht
  have hlen : ∀ e ∈ op.entries, e.variable_id < s.length :=
    fun e he => getElem?_lt_length (ht e he)
  constructor
  · intro e he
    exact write_entries_get_in _ _ _ hnd e he (hlen e he)
  · unfold apply_operator
    rw [apply_entries_eq]
    exact write_entries_roundtrip _ _ s op.entries hnd ht

/-! ## The table at the end of the loop -/

theorem Reach.lt {P : Projection} {i : Nat} {d : Int} (h : Reach P i d) :
    i < P.projected_task.num_states := by
  cases h <;> assumption

/-- When the queue is empty, every index reached by regression steps has a
written slot, whose value no chain undercuts. -/
theorem Inv.final_reach {P : Projection} {C : Int} {K : Nat} {c : Config}
    (hinv : Inv P C K c) (hc : CostsWithin P C) (hq : c.queue = [])
    {v : Nat} {p : Int} (hr : Reach P v p) :
    ∃ d, Finite c.distances v d ∧ d ≤ p := by
  rcases hinv.frontier hc hr with h | ⟨e, he, _⟩
  · exact h
  · rw [hq] at he
    simp at he

theorem Inv.final_closed {P : Projection} {C : Int} {K : Nat} {c : Config}
    (hinv : Inv P C K c) (hc : CostsWithin P C) (hq : c.queue = [])
    {j : Nat} {d : Int} (hr : Reach P j d) {op : TNFOperator} {i : Nat}
    (hedge : Edge P j op i) : i < P.projected_task.num_states := by
  obtain ⟨dj, hF, _⟩ := hinv.final_reach hc hq hr
  obtain ⟨di, hdi, _⟩ := hinv.closed j dj hF op i hedge
  rw [← hinv.len]
  exact getElem?_lt_length hdi

/-- The invariant holds for the table a finished construction leaves behind. -/
theorem PatternDatabase_inv {P : Projection} {t : List Int}
    (h0 : NonnegativeCosts P) (h1 : CostBound P)
    (h : PatternDatabase P = Run.finished t) :
    ∃ C K, CostsWithin P C ∧ Inv P C K { distances := t, queue := [] } := by
  obtain ⟨C, hc⟩ := costs_within h0 h1
  obtain ⟨K, hinv⟩ := Inv.steps hc (PatternDatabase_complete_run h).1
  exact ⟨C, K, hc, hinv⟩

/-! ## Regression chains and plans -/

theorem plan_cost_cons (op : TNFOperator) (plan : List TNFOperator) :
    plan_cost (op :: plan) = op.cost + plan_cost plan := by
  simp [plan_cost]

/-- A chain of regression steps from the goal to index `i`, read backwards, is
a plan from the state with index `i`. -/
theorem reach_to_plan {P : Projection} (hmi : MutualInverses P)
    (hdv : DistinctVariables P) {i : Nat} {d : Int} (hr : Reach P i d) :
    ∃ plan, IsPlan P (P.unrank_state i) plan ∧ plan_cost plan = d := by
  induction hr with
  | goal hg =>
    refine ⟨[], ⟨by simp, ?_⟩, rfl⟩
    rw [hmi.2 _ hg]
    rfl
  | step hr1 hedge hi ih =>
    rename_i j i d op
    obtain ⟨plan, ⟨hmem, hexec⟩, hcost⟩ := ih
    obtain ⟨hop, htest, pred, hpred, hrank⟩ := hedge
    subst hrank
    obtain ⟨happ, hres⟩ := apply_regress (hdv op hop) htest hpred
    refine ⟨op :: plan, ⟨?_, ?_⟩, ?_⟩
    · intro o ho
      rcases List.mem_cons.1 ho with rfl | h
      · exact hop
      · exact hmem o h
    · rw [hmi.2 _ hi]
      unfold execute_plan
      rw [if_pos happ, hres]
      exact hexec
    · rw [plan_cost_cons, hcost]
      exact add_comm _ _

/-- A plan from `s`, read backwards, is a chain of regression steps from the
goal to the index of `s`, provided the regression steps stay inside the table. -/
theorem plan_to_reach {P : Projection} (hmi : MutualInverses P)
    (hdv : DistinctVariables P)
    (hg : P.rank_state P.projected_task.goal_state < P.projected_task.num_states)
    (hcl : ∀ j d, Reach P j d → ∀ op i, Edge P j op i → i < P.projected_task.num_states)
    {s : TNFState} {plan : List TNFOperator} (hplan : IsPlan P s plan) :
    Reach P (P.rank_state s) (plan_cost plan) := by
  induction plan generalizing s with
  | nil =>
    obtain ⟨_, hexec⟩ := hplan
    unfold execute_plan at hexec
    have := Option.some.inj hexec
    subst this
    exact Reach.goal hg
  | cons op rest ih =>
    obtain ⟨hmem, hexec⟩ := hplan
    unfold execute_plan at hexec
    split at hexec
    · rename_i happ
      have hop := hmem op (List.mem_cons_self _ _)
      have hr : Reach P (P.rank_state (apply_operator op s)) (plan_cost rest) :=
        ih ⟨fun o ho => hmem o (List.mem_cons_of_mem _ ho), hexec⟩
      obtain ⟨htest, hpred⟩ := regress_apply (hdv op hop) happ
      have hedge : Edge P (P.rank_state (apply_operator op s)) op (P.rank_state s) := by
        refine ⟨hop, ?_, s, ?_, rfl⟩
        · rw [hmi.2 _ hr.lt]
          exact htest
        · rw [hmi.2 _ hr.lt]
          exact hpred
      have := Reach.step hr hedge (hcl _ _ hr _ _ hedge)
      rw [plan_cost_cons, add_comm]
      exact this
    · simp at hexec

/-- The index of the goal state is inside the table when the constructor has
finished. -/
theorem PatternDatabase_goal_lt {P : Projection} {C : Int} {K : Nat} {t : List Int}
    (hinv : Inv P C K { distances := t, queue := [] }) :
    P.rank_state P.projected_task.goal_state < P.projected_task.num_states := by
  rcases hinv.goal with ⟨d, hF⟩ | h
  · rw [← hinv.len]
    exact getElem?_lt_length hF.1
  · simp at h

/-- C1 (exactness of finite entries): when rank and unrank are mutual inverses,
costs are non-negative, the entries of each operator have distinct variables
and `num_states` times any cost is below `2^31 - 1`, every slot `i` of the
constructed table that holds a value `d` other than the sentinel is the cost of
a plan from `unrank_state i` to the goal state, and no plan from that state is
cheaper. -/
theorem finite_entry_exact (P : Projection) (t : List Int) (i : Nat) (d : Int)
    (hmi : MutualInverses P) (hnn : NonnegativeCosts P) (hdv : DistinctVariables P)
    (hcb : CostBound P) (hrun : PatternDatabase P = Run.finished t)
    (hi : t[i]? = some d) (hd : d ≠ INT_MAX) :
    (∃ plan, IsPlan P (P.unrank_state i) plan ∧ plan_cost plan = d) ∧
    ∀ plan, IsPlan P (P.unrank_state i) plan → d ≤ plan_cost plan := by
  obtain ⟨C, K, hc, hinv⟩ := PatternDatabase_inv hnn hcb hrun
  obtain ⟨hreach, hmin⟩ := hinv.exact i d ⟨hi, hd⟩
  refine ⟨reach_to_plan hmi hdv hreach, fun plan hplan => ?_⟩
  have hr := plan_to_reach hmi hdv (PatternDatabase_goal_lt hinv)
    (fun j dj hj op k hedge => hinv.final_closed hc rfl hj hedge) hplan
  rw [hmi.1 i hreach.lt] at hr
  exact hmin _ hr

/-- The slot of a state with a plan: it holds the least cost of a plan. -/
theorem table_at_solvable_state {P : Projection} {t : List Int} {s : TNFState}
    (hmi : MutualInverses P) (hnn : NonnegativeCosts P) (hdv : DistinctVariables P)
    (hcb : CostBound P) (hrun : PatternDatabase P = Run.finished t)
    (hs : ∃ plan, IsPlan P s plan) :
    ∃ d, t[P.rank_state s]? = some d ∧ d ≠ INT_MAX ∧
      (∃ plan, IsPlan P s plan ∧ plan_cost plan = d) ∧
      ∀ plan, IsPlan P s plan → d ≤ plan_cost plan := by
  obtain ⟨C, K, hc, hinv⟩ := PatternDatabase_inv hnn hcb hrun
  have hto : ∀ plan, IsPlan P s plan → Reach P (P.rank_state s) (plan_cost plan) :=
    fun plan hplan => plan_to_reach hmi hdv (PatternDatabase_goal_lt hinv)
      (fun j dj hj op k hedge => hinv.final_closed hc rfl hj hedge) hplan
  obtain ⟨plan0, hplan0⟩ := hs
  have hr0 := hto plan0 hplan0
  obtain ⟨d, hF, _⟩ := hinv.final_reach hc rfl hr0
  obtain ⟨hreach, hmin⟩ := hinv.exact _ d hF
  refine ⟨d, hF.1, hF.2, ?_, fun plan hplan => hmin _ (hto plan hplan)⟩
  have := reach_to_plan hmi hdv hreach
  rw [hmi.2 s hr0.lt] at this
  exact this

/-- C2 (completeness): under the preconditions of C1, for every state `s` from
which some plan reaches the goal state, the slot of `rank_state s` in the
constructed table does not hold the sentinel; its value is the cost of a plan
from `s`, and no plan from `s` is cheaper. -/
theorem solvable_state_entry (P : Projection) (t : List Int) (s : TNFState)
    (hmi : MutualInverses P) (hnn : NonnegativeCosts P) (hdv : DistinctVariables P)
    (hcb : CostBound P) (hrun : PatternDatabase P = Run.finished t)
    (hs : ∃ plan, IsPlan P s plan) :
    ∃ d, t[P.rank_state s]? = some d ∧ d ≠ INT_MAX ∧
      (∃ plan, IsPlan P s plan ∧ plan_cost plan = d) ∧
      ∀ plan, IsPlan P s plan → d ≤ plan_cost plan :=
  table_at_solvable_state hmi hnn hdv hcb hrun hs

/-- C4 (goal distance is zero): for a task with `num_states ≥ 1`, non-negative
costs, the index of the goal state inside the table and `num_states` times any
cost below `2^31 - 1`, the constructed table holds 0 in the slot of the goal
state. -/
theorem goal_distance_zero (P : Projection) (t : List Int)
    (_hn : 1 ≤ P.projected_task.num_states) (hnn : NonnegativeCosts P)
    (hg : P.rank_state P.projected_task.goal_state < P.projected_task.num_states)
    (hcb : CostBound P) (hrun : PatternDatabase P = Run.finished t) :
    t[P.rank_state P.projected_task.goal_state]? = some 0 := by
  obtain ⟨C, K, hc, hinv⟩ := PatternDatabase_inv hnn hcb hrun
  rcases hinv.goal with ⟨d, hF⟩ | h
  · have h1 := (hinv.exact _ d hF).2 0 (Reach.goal hg)
    have h2 := (hinv.trange _ d hF).1
    have : d = 0 := by omega
    subst this
    exact hF.1
  · simp at h

/-- C5 (consistency of the final table): for non-negative costs with
`num_states` times any cost below `2^31 - 1`, every index `j` with a finite
final value and every operator whose effect values all hold in
`unrank_state j` satisfy `distances[i] ≤ distances[j] + cost`, where `i` is the
rank of the state obtained from `unrank_state j` by setting the variables of
the entries to their precondition values.  (The proof needs neither mutual
inverses nor distinct variable ids.) -/
theorem final_table_consistent (P : Projection) (t : List Int) (j : Nat) (dj : Int)
    (op : TNFOperator) (hnn : NonnegativeCosts P) (hcb : CostBound P)
    (hrun : PatternDatabase P = Run.finished t)
    (hj : t[j]? = some dj) (hdj : dj ≠ INT_MAX)
    (hop : op ∈ P.projected_task.operators)
    (hpass : ∀ e ∈ op.entries, (P.unrank_state j)[e.variable_id]? = some e.effect_value) :
    ∃ di, t[P.rank_state (regress_operator op (P.unrank_state j))]? = some di ∧
      di ≤ dj + op.cost := by
  obtain ⟨C, K, hc, hinv⟩ := PatternDatabase_inv hnn hcb hrun
  have hedge : Edge P j op (P.rank_state (regress_operator op (P.unrank_state j))) := by
    refine ⟨hop, operator_can_reach_state_true.2 hpass, _, ?_, rfl⟩
    exact predecessor_state_of_lt (fun e he => getElem?_lt_length (hpass e he))
  obtain ⟨di, hdi, h | h⟩ := hinv.closed j dj ⟨hj, hdj⟩ op _ hedge
  · exact ⟨di, hdi, h⟩
  · simp at h

/-- C9 (Bellman tightness): under the preconditions of C1, every index `i`
other than the index of the goal state whose final value is finite has an
operator that is applicable in `unrank_state i` and leads to a state
`unrank_state j` with a finite final value and
`distances[i] = distances[j] + cost`. -/
theorem bellman_tight (P : Projection) (t : List Int) (i : Nat) (d : Int)
    (hmi : MutualInverses P) (hnn : NonnegativeCosts P) (hdv : DistinctVariables P)
    (hcb : CostBound P) (hrun : PatternDatabase P = Run.finished t)
    (hi : t[i]? = some d) (hd : d ≠ INT_MAX)
    (hne : i ≠ P.rank_state P.projected_task.goal_state) :
    ∃ op j dj, op ∈ P.projected_task.operators ∧
      applicable op (P.unrank_state i) ∧
      apply_operator op (P.unrank_state i) = P.unrank_state j ∧
      t[j]? = some dj ∧ dj ≠ INT_MAX ∧ d = dj + op.cost := by
  obtain ⟨C, K, hc, hinv⟩ := PatternDatabase_inv hnn hcb hrun
  obtain ⟨j, op, dj, hedge, hFj, hsum⟩ := hinv.parent i d ⟨hi, hd⟩ hne
  obtain ⟨hop, htest, pred, hpred, hrank⟩ := hedge
  have hilt : i < P.projected_task.num_states := by
    rw [← hinv.len]
    exact getElem?_lt_length hi
  have hun : P.unrank_state i = pred := by
    rw [← hrank]
    apply hmi.2
    rw [hrank]
    exact hilt
  obtain ⟨happ, hres⟩ := apply_regress (hdv op hop) htest hpred
  rw [hun]
  exact ⟨op, j, dj, hop, happ, hres, hFj.1, hFj.2, hsum⟩

/-- The tables of two complete runs of the loop agree. -/
theorem complete_run_unique {P : Projection} (hnn : NonnegativeCosts P)
    (hcb : CostBound P) {c1 c2 : Config} (h1 : CompleteRun P c1)
    (h2 : CompleteRun P c2) : c1.distances = c2.distances := by
  obtain ⟨C, hc⟩ := costs_within hnn hcb
  obtain ⟨K1, hinv1⟩ := Inv.steps hc h1.1
  obtain ⟨K2, hinv2⟩ := Inv.steps hc h2.1
  have key : ∀ {ca cb : Config} {Ka Kb : Nat}, Inv P C Ka ca → Inv P C Kb cb →
      ca.queue = [] → cb.queue = [] → ∀ k x, Finite ca.distances k x →
      ∃ y, Finite cb.distances k y ∧ y ≤ x := by
    intro ca cb Ka Kb ha hb hqa hqb k x hF
    exact hb.final_reach hc hqb (ha.exact k x hF).1
  apply List.ext_getElem?
  intro k
  by_cases hk : k < P.projected_task.num_states
  · have hk1 : k < c1.distances.length := by rw [hinv1.len]; exact hk
    have hk2 : k < c2.distances.length := by rw [hinv2.len]; exact hk
    rw [List.getElem?_eq_getElem hk1, List.getElem?_eq_getElem hk2]
    have e1 : c1.distances[k]? = some c1.distances[k] := List.getElem?_eq_getElem hk1
    have e2 : c2.distances[k]? = some c2.distances[k] := List.getElem?_eq_getElem hk2
    congr 1
    by_cases hx : c1.distances[k] = INT_MAX
    · by_cases hy : c2.distances[k] = INT_MAX
      · rw [hx, hy]
      · obtain ⟨x, hFx, _⟩ := key hinv2 hinv1 h2.2 h1.2 k _ ⟨e2, hy⟩
        have := hFx.1
        rw [e1] at this
        exact absurd (hx ▸ (Option.some.inj this)).symm hFx.2
    · obtain ⟨y, hFy, hle⟩ := key hinv1 hinv2 h1.2 h2.2 k _ ⟨e1, hx⟩
      obtain ⟨x, hFx, hle2⟩ := key hinv2 hinv1 h2.2 h1.2 k _ hFy
      have hy := hFy.1
      rw [e2] at hy
      have hx2 := hFx.1
      rw [e1] at hx2
      have := Option.some.inj hy
      have := Option.some.inj hx2
      omega
  · rw [List.getElem?_eq_none (by rw [hinv1.len]; omega),
      List.getElem?_eq_none (by rw [hinv2.len]; omega)]

/-- C8 (independence from tie-breaking): for non-negative costs with
`num_states` times any cost below `2^31 - 1`, all complete runs of the loop,
whichever entry of least distance each iteration removes, end with the same
table, and this is the table the constructor builds. -/
theorem tie_breaking_independent (P : Projection) (hnn : NonnegativeCosts P)
    (hcb : CostBound P) :
    (∀ c1 c2, CompleteRun P c1 → CompleteRun P c2 → c1.distances = c2.distances) ∧
    (∀ t, PatternDatabase P = Run.finished t →
      ∀ c, CompleteRun P c → c.distances = t) := by
  refine ⟨fun c1 c2 h1 h2 => complete_run_unique hnn hcb h1 h2, fun t ht c hcr => ?_⟩
  exact complete_run_unique hnn hcb hcr (PatternDatabase_complete_run ht)

/-! ## Unreachable states, for arbitrary costs -/

theorem InvReach.start (P : Projection) : InvReach P (initial_config P) := by
  unfold initial_config
  refine ⟨by simp, fun i d hF => absurd hF not_Finite_replicate, ?_⟩
  intro e he hlt
  simp only [List.mem_singleton] at he
  subst he
  exact ⟨0, Reach.goal hlt⟩

theorem InvReach.process {P : Projection} {c c1 : Config} {e : QueueEntry}
    (hinv : InvReach P c) (he : e ∈ c.queue) (hproc : process_entry P c e = some c1) :
    InvReach P c1 := by
  obtain ⟨stored, hs, ⟨hle, rfl⟩ | ⟨hlt, hd, hex⟩⟩ := process_entry_cases hproc
  · exact ⟨hinv.len, hinv.slot,
      fun e1 h1 hlt => hinv.entry e1 (List.mem_of_mem_erase h1) hlt⟩
  · obtain ⟨t1, q1⟩ := c1
    simp only at hd hex
    subst hd
    have hilen : e.2 < c.distances.length := getElem?_lt_length hs
    have hin : e.2 < P.projected_task.num_states := by
      rw [← hinv.len]
      exact hilen
    obtain ⟨p, hp⟩ := hinv.entry e he hin
    refine ⟨by simp only [List.length_set]; exact hinv.len, ?_, ?_⟩
    · intro k x hF
      by_cases hk : k = e.2
      · subst hk
        exact ⟨p, hp⟩
      · exact hinv.slot k x ((Finite_set_ne hk).1 hF)
    · intro e1 h1 hlt1
      rcases expand_operators_mem hex e1 h1 with
        h2 | ⟨op, hop, pred, old, htest, hpred, hold, hlt2, rfl⟩
      · exact hinv.entry e1 (List.mem_of_mem_erase h2) hlt1
      · exact ⟨p + op.cost, Reach.step hp ⟨hop, htest, pred, hpred, rfl⟩ hlt1⟩

theorem InvReach.run {P : Projection} {c : Config}
    (hsteps : Steps P (initial_config P) c) : InvReach P c := by
  induction hsteps with
  | refl => exact InvReach.start P
  | tail _ hstep ih =>
    obtain ⟨e, he, _, hproc⟩ := hstep
    exact ih.process he hproc

/-- C3 (unreachable states keep the sentinel): when rank and unrank are mutual
inverses and the entries of each operator have distinct variables, whatever
the operator costs are, the slot of every abstract state `s` that no plan
takes to the goal state holds the sentinel in the constructed table, and
`lookup_distance` returns the sentinel for every state whose projection is `s`. -/
theorem unreachable_keeps_sentinel (P : Projection) (t : List Int) (s : TNFState)
    (hmi : MutualInverses P) (hdv : DistinctVariables P)
    (hrun : PatternDatabase P = Run.finished t)
    (hs : P.rank_state s < P.projected_task.num_states)
    (hno : ¬ ∃ plan, IsPlan P s plan) :
    t[P.rank_state s]? = some INT_MAX ∧
    ∀ original_state, P.project_state original_state = s →
      lookup_distance P t original_state = some INT_MAX := by
  have hinv := InvReach.run (PatternDatabase_complete_run hrun).1
  have hslot : t[P.rank_state s]? = some INT_MAX := by
    have hlen : P.rank_state s < t.length := by
      have := hinv.len
      simp only at this
      omega
    rw [List.getElem?_eq_getElem hlen]
    congr 1
    by_contra hne
    obtain ⟨p, hp⟩ := hinv.slot (P.rank_state s) _ ⟨List.getElem?_eq_getElem hlen, hne⟩
    obtain ⟨plan, hplan, _⟩ := reach_to_plan hmi hdv hp
    rw [hmi.2 s hs] at hplan
    exact hno ⟨plan, hplan⟩
  refine ⟨hslot, fun original_state hproj => ?_⟩
  unfold lookup_distance
  simp only [hproj]
  exact hslot

/-- C10, as amended (table slots are non-negative or the sentinel): for
non-negative costs with `num_states` times any cost below `2^31 - 1`, every
slot of the constructed table holds the sentinel or a value `d` with
`0 ≤ d < numeric_limits<int>::max()`; a slot that does not hold the sentinel
holds 0 for the goal state, or else the exact sum `distances[j] + cost` of a
regression step from a written slot `j`, which has not overflowed. -/
theorem slots_nonnegative_or_sentinel (P : Projection) (t : List Int) (i : Nat)
    (d : Int) (hnn : NonnegativeCosts P) (hcb : CostBound P)
    (hrun : PatternDatabase P = Run.finished t) (hi : t[i]? = some d) :
    (d = INT_MAX ∨ (0 ≤ d ∧ d < INT_MAX)) ∧
    (d ≠ INT_MAX →
      (i = P.rank_state P.projected_task.goal_state ∧ d = 0) ∨
      ∃ j op dj, Edge P j op i ∧ t[j]? = some dj ∧ 0 ≤ dj ∧ 0 ≤ op.cost ∧
        dj + op.cost < INT_MAX ∧ d = dj + op.cost) := by
  obtain ⟨C, K, hc, hinv⟩ := PatternDatabase_inv hnn hcb hrun
  have h2 := hinv.bound hc
  have h3 := hc.1
  constructor
  · by_cases hd : d = INT_MAX
    · exact Or.inl hd
    · right
      have h1 := hinv.trange i d ⟨hi, hd⟩
      omega
  · intro hd
    have h1 := hinv.trange i d ⟨hi, hd⟩
    by_cases hg : i = P.rank_state P.projected_task.goal_state
    · left
      refine ⟨hg, ?_⟩
      have hlt : P.rank_state P.projected_task.goal_state <
          P.projected_task.num_states := PatternDatabase_goal_lt hinv
      have h4 := (hinv.exact i d ⟨hi, hd⟩).2 0 (hg ▸ Reach.goal hlt)
      omega
    · right
      obtain ⟨j, op, dj, hedge, hFj, hsum⟩ := hinv.parent i d ⟨hi, hd⟩ hg
      have h5 := hinv.trange j dj hFj
      have h6 := hc.2.1 op hedge.1
      exact ⟨j, op, dj, hedge, hFj.1, h5.1, h6.1, by omega, hsum⟩

/-! ## Termination -/

theorem weight_set {t : List Int} {i : Nat} {d stored : Int}
    (hi : t[i]? = some stored) :
    weight (t.set i d) + (stored + 2147483648).toNat =
      weight t + (d + 2147483648).toNat := by
  induction t generalizing i with
  | nil => simp at hi
  | cons a rest ih =>
    cases i with
    | zero =>
      simp at hi
      subst hi
      simp only [weight, List.set_cons_zero, List.map_cons, List.sum_cons]
      omega
    | succ k =>
      simp at hi
      have := ih hi
      simp only [weight, List.set_cons_succ, List.map_cons, List.sum_cons] at this ⊢
      omega

theorem weight_replicate (n : Nat) :
    weight (List.replicate n INT_MAX) = n * 4294967295 := by
  induction n with
  | zero => rfl
  | succ k ih =>
    simp only [weight, List.replicate_succ, List.map_cons, List.sum_cons] at ih ⊢
    rw [ih]
    have : (INT_MAX + 2147483648).toNat = 4294967295 := by decide
    rw [this]
    ring

/-- Every iteration keeps the distances in the 32-bit range and lowers the
potential. -/
theorem InRange_process {P : Projection} {c c1 : Config} {e : QueueEntry}
    (hr : InRange c) (he : e ∈ c.queue) (hproc : process_entry P c e = some c1) :
    InRange c1 ∧ potential P c1 < potential P c := by
  have hqpos : 0 < c.queue.length := List.length_pos_of_mem he
  have hlen := List.length_erase_of_mem he
  obtain ⟨stored, hs, ⟨hle, rfl⟩ | ⟨hlt, hd, hex⟩⟩ := process_entry_cases hproc
  · refine ⟨⟨hr.1, fun e1 h1 => hr.2 e1 (List.mem_of_mem_erase h1)⟩, ?_⟩
    simp only [potential]
    omega
  · obtain ⟨t1, q1⟩ := c1
    simp only at hd hex
    subst hd
    have he1 := hr.2 e he
    constructor
    · constructor
      · intro x hx
        rcases List.mem_or_eq_of_mem_set hx with h | rfl
        · exact hr.1 x h
        · exact he1
      · intro e1 h1
        rcases expand_operators_mem hex e1 h1 with
          h2 | ⟨op, hop, pred, old, htest, hpred, hold, hlt2, rfl⟩
        · exact hr.2 e1 (List.mem_of_mem_erase h2)
        · exact wrap32_range _
    · have hw : weight (c.distances.set e.2 e.1) + (stored + 2147483648).toNat =
          weight c.distances + (e.1 + 2147483648).toNat := weight_set hs
      have hst := hr.1 stored (List.getElem?_mem hs)
      have hql := expand_operators_length hex
      have hdrop : weight (c.distances.set e.2 e.1) + 1 ≤ weight c.distances := by omega
      simp only [potential]
      have hmul := Nat.mul_le_mul_left (P.projected_task.operators.length + 1) hdrop
      have hexp : (P.projected_task.operators.length + 1) *
          (weight (c.distances.set e.2 e.1) + 1) =
          (P.projected_task.operators.length + 1) * weight (c.distances.set e.2 e.1) +
            (P.projected_task.operators.length + 1) := by ring
      omega

/-- The loop does not run out of iterations when it is given as many as the
potential of its state. -/
theorem run_loop_ne_timeout {P : Projection} {fuel : Nat} {c : Config}
    (hr : InRange c) (hp : potential P c ≤ fuel) : run_loop P fuel c ≠ Run.timeout := by
  induction fuel generalizing c with
  | zero =>
    unfold run_loop
    split
    · simp
    · rename_i e hq
      have := List.length_pos_of_mem (queue_top_mem hq)
      simp only [potential] at hp
      omega
  | succ n ih =>
    unfold run_loop
    split
    · simp
    · rename_i e hq
      simp only
      split
      · simp
      · rename_i c1 hproc
        obtain ⟨hr1, hlt⟩ := InRange_process hr (queue_top_mem hq) hproc
        exact ih hr1 (by omega)

/-- The constructor never runs out of iterations. -/
theorem PatternDatabase_ne_timeout (P : Projection) : PatternDatabase P ≠ Run.timeout := by
  unfold PatternDatabase
  apply run_loop_ne_timeout
  · unfold initial_config
    constructor
    · intro x hx
      have := List.eq_of_mem_replicate hx
      subst this
      decide
    · intro e he
      simp only [List.mem_singleton] at he
      subst he
      show (-2147483648 : Int) ≤ 0 ∧ (0 : Int) ≤ INT_MAX
      decide
  · simp only [potential, initial_config, construction_fuel, weight_replicate,
      List.length_singleton]
    have : (P.projected_task.operators.length + 1) * (P.projected_task.num_states * 4294967295)
        ≤ (P.projected_task.operators.length + 1) * P.projected_task.num_states * 4294967296 := by
      rw [Nat.mul_assoc]
      exact Nat.mul_le_mul_left _ (Nat.mul_le_mul_left _ (by decide))
    omega

/-! ## Absence of faults -/

theorem expand_operators_some {P : Projection} (hff : FaultFree P) {t : List Int}
    (hlen : t.length = P.projected_task.num_states) {i : Nat}
    (hi : i < P.projected_task.num_states) (d : Int) (ops : List TNFOperator)
    (hops : ∀ op ∈ ops, op ∈ P.projected_task.operators) (q : List QueueEntry) :
    ∃ q1, expand_operators P t i d ops q = some q1 := by
  induction ops generalizing q with
  | nil => exact ⟨q, rfl⟩
  | cons op rest ih =>
    have hop := hops op (List.mem_cons_self _ _)
    obtain ⟨⟨b, hb⟩, hpred⟩ := hff.2 i hi op hop
    have hstep : ∃ q2, expand_operator P t i d q op = some q2 := by
      unfold expand_operator
      rw [hb]
      cases b with
      | false => exact ⟨q, rfl⟩
      | true =>
        have hall := operator_can_reach_state_true.1 hb
        have hp : predecessor_state (P.unrank_state i) op.entries =
            some (write_entries (fun e => e.precondition_value) (P.unrank_state i)
              op.entries) :=
          predecessor_state_of_lt (fun e he => getElem?_lt_length (hall e he))
        simp only [hp]
        have hlt := hpred _ hb hp
        rw [List.getElem?_eq_getElem (by rw [hlen]; exact hlt)]
        simp only
        split
        · exact ⟨_, rfl⟩
        · exact ⟨_, rfl⟩
    obtain ⟨q2, hq2⟩ := hstep
    obtain ⟨q1, hq1⟩ := ih (fun o ho => hops o (List.mem_cons_of_mem _ ho)) q2
    refine ⟨q1, ?_⟩
    unfold expand_operators
    rw [hq2]
    exact hq1

/-- An iteration on a bounded state of a fault-free task does not fault, and
leaves a bounded state. -/
theorem Bounded_process {P : Projection} (hff : FaultFree P) {c : Config}
    (hb : Bounded P c) {e : QueueEntry} (he : e ∈ c.queue) :
    ∃ c1, process_entry P c e = some c1 ∧ Bounded P c1 := by
  have hi := hb.2 e he
  have hlt : e.2 < c.distances.length := by
    rw [hb.1]
    exact hi
  have hs : c.distances[e.2]? = some c.distances[e.2] := List.getElem?_eq_getElem hlt
  unfold process_entry
  simp only [hs]
  split
  · exact ⟨_, rfl, hb.1, fun e1 h1 => hb.2 e1 (List.mem_of_mem_erase h1)⟩
  · have hlen : (c.distances.set e.2 e.1).length = P.projected_task.num_states := by
      simp only [List.length_set]
      exact hb.1
    obtain ⟨q1, hq1⟩ := expand_operators_some hff hlen hi e.1 P.projected_task.operators
      (fun _ h => h) (c.queue.erase e)
    rw [hq1]
    refine ⟨_, rfl, hlen, ?_⟩
    intro e1 h1
    rcases expand_operators_mem hq1 e1 h1 with
      h2 | ⟨op, hop, pred, old, htest, hpred, hold, hlt2, rfl⟩
    · exact hb.2 e1 (List.mem_of_mem_erase h2)
    · rw [← hlen]
      exact getElem?_lt_length hold

theorem run_loop_ne_fault {P : Projection} (hff : FaultFree P) {fuel : Nat} {c : Config}
    (hb : Bounded P c) : run_loop P fuel c ≠ Run.fault := by
  induction fuel generalizing c with
  | zero =>
    unfold run_loop
    split <;> simp
  | succ n ih =>
    unfold run_loop
    split
    · simp
    · rename_i e hq
      obtain ⟨c1, hc1, hb1⟩ := Bounded_process hff hb (queue_top_mem hq)
      simp only [hc1]
      exact ih hb1

/-- The constructor finishes on every fault-free task. -/
theorem PatternDatabase_finishes {P : Projection} (hff : FaultFree P) :
    ∃ t, PatternDatabase P = Run.finished t := by
  have h1 := PatternDatabase_ne_timeout P
  have h2 : PatternDatabase P ≠ Run.fault := by
    unfold PatternDatabase
    apply run_loop_ne_fault hff
    refine ⟨by simp [initial_config], ?_⟩
    intro e he
    simp only [initial_config, List.mem_singleton] at he
    subst he
    exact hff.1
  cases h : PatternDatabase P with
  | finished t => exact ⟨t, rfl⟩
  | fault => exact absurd h h2
  | timeout => exact absurd h h1

/-! ## The concrete tasks -/

theorem binary_mutual_inverses : MutualInverses binary_projection := by
  constructor
  · intro i hi
    have hi4 : i < 4 := hi
    interval_cases i <;> rfl
  · intro s hs
    show binary_unrank (binary_rank s) = s
    have hs4 : binary_rank s < 4 := hs
    unfold binary_rank at hs4 ⊢
    split at hs4
    · rename_i a b
      split at hs4
      · rename_i hab
        rw [if_pos hab]
        rcases hab with ⟨rfl | rfl, rfl | rfl⟩ <;> rfl
      · omega
    · omega

theorem binary_nonnegative_costs : NonnegativeCosts binary_projection := by
  unfold NonnegativeCosts
  decide

theorem binary_distinct_variables : DistinctVariables binary_projection := by
  unfold DistinctVariables
  decide

theorem binary_cost_bound : CostBound binary_projection := by
  unfold CostBound
  decide

theorem binary_table : PatternDatabase binary_projection = Run.finished [3, 2, 1, 0] := by
  decide

/-- C1 at the worked example: slot 0, the slot of state `(0,0)`, holds 3. -/
theorem finite_entry_exact_witness :
    (∃ plan, IsPlan binary_projection (binary_projection.unrank_state 0) plan ∧
      plan_cost plan = 3) ∧
    ∀ plan, IsPlan binary_projection (binary_projection.unrank_state 0) plan →
      3 ≤ plan_cost plan :=
  finite_entry_exact binary_projection [3, 2, 1, 0] 0 3 binary_mutual_inverses
    binary_nonnegative_costs binary_distinct_variables binary_cost_bound
    binary_table (by decide) (by decide)

/-! ## The worked example -/

theorem opA_step {a b : Int} (h : applicable opA [a, b]) :
    a = 0 ∧ apply_operator opA [a, b] = [1, b] := by
  have h1 := h _ (List.mem_cons_self _ _)
  simp at h1
  exact ⟨h1, rfl⟩

theorem opB_step {a b : Int} (h : applicable opB [a, b]) :
    b = 0 ∧ apply_operator opB [a, b] = [a, 1] := by
  have h1 := h _ (List.mem_cons_self _ _)
  simp at h1
  exact ⟨h1, rfl⟩

/-- In the worked example every plan from `(a, b)` costs `(1 - a) + 2 (1 - b)`. -/
theorem worked_example_plan_cost {P : Projection}
    (htask : P.projected_task = worked_example_task) (plan : List TNFOperator) :
    ∀ a b : Int, IsPlan P [a, b] plan → plan_cost plan = (1 - a) + 2 * (1 - b) := by
  induction plan with
  | nil =>
    intro a b hplan
    have h := hplan.2
    rw [htask] at h
    unfold execute_plan at h
    have h1 : [a, b] = [1, 1] := Option.some.inj h
    simp at h1
    obtain ⟨rfl, rfl⟩ := h1
    rfl
  | cons op rest ih =>
    intro a b hplan
    obtain ⟨hmem, hexec⟩ := hplan
    have hop := hmem op (List.mem_cons_self _ _)
    have hrest : ∀ o ∈ rest, o ∈ P.projected_task.operators :=
      fun o ho => hmem o (List.mem_cons_of_mem _ ho)
    rw [htask] at hop
    unfold execute_plan at hexec
    split at hexec
    · rename_i happ
      rw [plan_cost_cons]
      simp only [worked_example_task, List.mem_cons, List.mem_singleton,
        List.not_mem_nil, or_false] at hop
      rcases hop with rfl | rfl
      · obtain ⟨rfl, hres⟩ := opA_step happ
        rw [hres] at hexec
        rw [ih 1 b ⟨hrest, hexec⟩]
        simp only [opA]
        ring
      · obtain ⟨rfl, hres⟩ := opB_step happ
        rw [hres] at hexec
        rw [ih a 1 ⟨hrest, hexec⟩]
        simp only [opB]
        ring
    · simp at hexec

/-- The constructor does not fault on the worked example, whatever bijection
ranks its four states. -/
theorem worked_example_fault_free {P : Projection}
    (htask : P.projected_task = worked_example_task) (hmi : MutualInverses P)
    (hrank : ∀ a b : Int, (a = 0 ∨ a = 1) → (b = 0 ∨ b = 1) → P.rank_state [a, b] < 4) :
    FaultFree P := by
  have hn : P.projected_task.num_states = 4 := by rw [htask]; rfl
  have hun : ∀ a b : Int, (a = 0 ∨ a = 1) → (b = 0 ∨ b = 1) →
      P.unrank_state (P.rank_state [a, b]) = [a, b] :=
    fun a b ha hb => hmi.2 _ (by rw [hn]; exact hrank a b ha hb)
  have hinj : ∀ a b a1 b1 : Int, (a = 0 ∨ a = 1) → (b = 0 ∨ b = 1) →
      (a1 = 0 ∨ a1 = 1) → (b1 = 0 ∨ b1 = 1) →
      P.rank_state [a, b] = P.rank_state [a1, b1] → [a, b] = [a1, b1] := by
    intro a b a1 b1 ha hb ha1 hb1 h
    rw [← hun a b ha hb, ← hun a1 b1 ha1 hb1, h]
  have hstates : ∀ i, i < 4 → ∃ a b : Int, (a = 0 ∨ a = 1) ∧ (b = 0 ∨ b = 1) ∧
      P.unrank_state i = [a, b] := by
    intro i hi
    have h00 := hrank 0 0 (Or.inl rfl) (Or.inl rfl)
    have h01 := hrank 0 1 (Or.inl rfl) (Or.inr rfl)
    have h10 := hrank 1 0 (Or.inr rfl) (Or.inl rfl)
    have h11 := hrank 1 1 (Or.inr rfl) (Or.inr rfl)
    have n1 : P.rank_state [0, 0] ≠ P.rank_state [0, 1] := fun h => by
      have := hinj 0 0 0 1 (Or.inl rfl) (Or.inl rfl) (Or.inl rfl) (Or.inr rfl) h
      simp at this
    have n2 : P.rank_state [0, 0] ≠ P.rank_state [1, 0] := fun h => by
      have := hinj 0 0 1 0 (Or.inl rfl) (Or.inl rfl) (Or.inr rfl) (Or.inl rfl) h
      simp at this
    have n3 : P.rank_state [0, 0] ≠ P.rank_state [1, 1] := fun h => by
      have := hinj 0 0 1 1 (Or.inl rfl) (Or.inl rfl) (Or.inr rfl) (Or.inr rfl) h
      simp at this
    have n4 : P.rank_state [0, 1] ≠ P.rank_state [1, 0] := fun h => by
      have := hinj 0 1 1 0 (Or.inl rfl) (Or.inr rfl) (Or.inr rfl) (Or.inl rfl) h
      simp at this
    have n5 : P.rank_state [0, 1] ≠ P.rank_state [1, 1] := fun h => by
      have := hinj 0 1 1 1 (Or.inl rfl) (Or.inr rfl) (Or.inr rfl) (Or.inr rfl) h
      simp at this
    have n6 : P.rank_state [1, 0] ≠ P.rank_state [1, 1] := fun h => by
      have := hinj 1 0 1 1 (Or.inr rfl) (Or.inl rfl) (Or.inr rfl) (Or.inr rfl) h
      simp at this
    have hcases : i = P.rank_state [0, 0] ∨ i = P.rank_state [0, 1] ∨
        i = P.rank_state [1, 0] ∨ i = P.rank_state [1, 1] := by omega
    rcases hcases with rfl | rfl | rfl | rfl
    · exact ⟨0, 0, Or.inl rfl, Or.inl rfl, hun 0 0 (Or.inl rfl) (Or.inl rfl)⟩
    · exact ⟨0, 1, Or.inl rfl, Or.inr rfl, hun 0 1 (Or.inl rfl) (Or.inr rfl)⟩
    · exact ⟨1, 0, Or.inr rfl, Or.inl rfl, hun 1 0 (Or.inr rfl) (Or.inl rfl)⟩
    · exact ⟨1, 1, Or.inr rfl, Or.inr rfl, hun 1 1 (Or.inr rfl) (Or.inr rfl)⟩
  constructor
  · rw [hn, htask]
    exact hrank 1 1 (Or.inr rfl) (Or.inr rfl)
  · intro i hi op hop
    rw [hn] at hi ⊢
    obtain ⟨a, b, ha, hb, hst⟩ := hstates i hi
    rw [hst]
    rw [htask] at hop
    simp only [worked_example_task, List.mem_cons, List.mem_singleton,
      List.not_mem_nil, or_false] at hop
    rcases hop with rfl | rfl <;> rcases ha with rfl | rfl <;> rcases hb with rfl | rfl <;>
      refine ⟨⟨_, rfl⟩, fun pred _ hp => ?_⟩ <;>
      · have hp1 := (Option.some.inj hp).symm
        subst hp1
        first
          | exact hrank 0 0 (Or.inl rfl) (Or.inl rfl)
          | exact hrank 0 1 (Or.inl rfl) (Or.inr rfl)
          | exact hrank 1 0 (Or.inr rfl) (Or.inl rfl)

/-- The slot of a state of the worked example holds `(1 - a) + 2 (1 - b)` when
some plan leads from the state to the goal. -/
theorem worked_example_slot {P : Projection}
    (htask : P.projected_task = worked_example_task) (hmi : MutualInverses P)
    {t : List Int} (hrun : PatternDatabase P = Run.finished t) (a b : Int)
    (hplan : ∃ plan, IsPlan P [a, b] plan) :
    t[P.rank_state [a, b]]? = some ((1 - a) + 2 * (1 - b)) := by
  have hnn : NonnegativeCosts P := by
    unfold NonnegativeCosts
    rw [htask]
    decide
  have hdv : DistinctVariables P := by
    unfold DistinctVariables
    rw [htask]
    decide
  have hcb : CostBound P := by
    unfold CostBound
    rw [htask]
    decide
  obtain ⟨d, hd, _, ⟨plan, hp, hcost⟩, _⟩ :=
    table_at_solvable_state hmi hnn hdv hcb hrun hplan
  rw [hd, ← hcost, worked_example_plan_cost htask plan a b hp]

/-- C6 (worked example): for the task with two binary variables, goal `(1,1)`,
`opA` of cost 1 setting `v0` from 0 to 1 and `opB` of cost 2 setting `v1` from
0 to 1, and any rank and unrank that are mutual inverses between the four
states and `[0,4)`, the constructor finishes with a table that holds 0 at
`rank (1,1)`, 1 at `rank (0,1)`, 2 at `rank (1,0)` and 3 at `rank (0,0)`, and
`lookup_distance` returns 3 for every state whose projection is `(0,0)`. -/
theorem worked_example_table (P : Projection)
    (htask : P.projected_task = worked_example_task) (hmi : MutualInverses P)
    (hrank : ∀ a b : Int, (a = 0 ∨ a = 1) → (b = 0 ∨ b = 1) → P.rank_state [a, b] < 4) :
    ∃ t, PatternDatabase P = Run.finished t ∧
      t[P.rank_state [1, 1]]? = some 0 ∧
      t[P.rank_state [0, 1]]? = some 1 ∧
      t[P.rank_state [1, 0]]? = some 2 ∧
      t[P.rank_state [0, 0]]? = some 3 ∧
      ∀ original_state, P.project_state original_state = [0, 0] →
        lookup_distance P t original_state = some 3 := by
  obtain ⟨t, hrun⟩ := PatternDatabase_finishes (worked_example_fault_free htask hmi hrank)
  have hops : ∀ plan : List TNFOperator, (∀ o ∈ plan, o ∈ [opA, opB]) →
      ∀ o ∈ plan, o ∈ P.projected_task.operators := by
    intro plan h o ho
    rw [htask]
    exact h o ho
  have h11 := worked_example_slot htask hmi hrun 1 1
    ⟨[], hops [] (by decide), by rw [htask]; rfl⟩
  have h01 := worked_example_slot htask hmi hrun 0 1
    ⟨[opA], hops [opA] (by decide), by rw [htask]; decide⟩
  have h10 := worked_example_slot htask hmi hrun 1 0
    ⟨[opB], hops [opB] (by decide), by rw [htask]; decide⟩
  have h00 := worked_example_slot htask hmi hrun 0 0
    ⟨[opA, opB], hops [opA, opB] (by decide), by rw [htask]; decide⟩
  refine ⟨t, hrun, h11, h01, h10, h00, fun original_state hproj => ?_⟩
  unfold lookup_distance
  simp only [hproj]
  exact h00

theorem binary_rank_lt (a b : Int) (ha : a = 0 ∨ a = 1) (hb : b = 0 ∨ b = 1) :
    binary_projection.rank_state [a, b] < 4 := by
  rcases ha with rfl | rfl <;> rcases hb with rfl | rfl <;> decide

/-- C6 at the mixed-radix rank of two binary variables. -/
theorem worked_example_table_witness :
    ∃ t, PatternDatabase binary_projection = Run.finished t ∧
      t[binary_projection.rank_state [1, 1]]? = some 0 ∧
      t[binary_projection.rank_state [0, 1]]? = some 1 ∧
      t[binary_projection.rank_state [1, 0]]? = some 2 ∧
      t[binary_projection.rank_state [0, 0]]? = some 3 ∧
      ∀ original_state, binary_projection.project_state original_state = [0, 0] →
        lookup_distance binary_projection t original_state = some 3 :=
  worked_example_table binary_projection rfl binary_mutual_inverses binary_rank_lt

/-! ## Admissibility -/

/-- A plan of the original task projects to a plan of the projected task that
costs no more, when the original costs are non-negative. -/
theorem abstract_plan {P : Projection} {ops : List TNFOperator}
    {is_goal : TNFState → Bool} (habs : IsAbstraction P ops is_goal)
    (hpos : ∀ op ∈ ops, 0 ≤ op.cost) (plan : List TNFOperator) :
    ∀ s, IsOriginalPlan ops is_goal s plan →
      ∃ plan1, IsPlan P (P.project_state s) plan1 ∧ plan_cost plan1 ≤ plan_cost plan := by
  induction plan with
  | nil =>
    rintro s ⟨_, s1, hexec, hgoal⟩
    unfold execute_plan at hexec
    have := Option.some.inj hexec
    subst this
    refine ⟨[], ⟨by simp, ?_⟩, le_refl _⟩
    unfold execute_plan
    rw [habs.1 s hgoal]
  | cons op rest ih =>
    rintro s ⟨hmem, s1, hexec, hgoal⟩
    have hop := hmem op (List.mem_cons_self _ _)
    unfold execute_plan at hexec
    split at hexec
    · rename_i happ
      obtain ⟨plan1, ⟨hmem1, hexec1⟩, hcost1⟩ := ih (apply_operator op s)
        ⟨fun o ho => hmem o (List.mem_cons_of_mem _ ho), s1, hexec, hgoal⟩
      rw [plan_cost_cons]
      rcases habs.2 op hop s happ with ⟨op1, hop1, hle, happ1, hres⟩ | hsame
      · refine ⟨op1 :: plan1, ⟨?_, ?_⟩, ?_⟩
        · intro o ho
          rcases List.mem_cons.1 ho with rfl | h
          · exact hop1
          · exact hmem1 o h
        · unfold execute_plan
          rw [if_pos happ1, hres]
          exact hexec1
        · rw [plan_cost_cons]
          omega
      · refine ⟨plan1, ⟨hmem1, ?_⟩, ?_⟩
        · rw [hsame]
          exact hexec1
        · have := hpos op hop
          omega
    · simp at hexec

/-- C7, as amended (admissibility of lookup): let the projection be an
abstraction of an original task whose operator costs are non-negative, and let
the projected task satisfy the preconditions of C1.  Then for every state from
which the original task has a plan, `lookup_distance` returns a value that is
not the sentinel and is at most the cost of every plan of the original task
from that state. -/
theorem lookup_admissible (P : Projection) (ops : List TNFOperator)
    (is_goal : TNFState → Bool) (t : List Int) (s : TNFState)
    (habs : IsAbstraction P ops is_goal) (hpos : ∀ op ∈ ops, 0 ≤ op.cost)
    (hmi : MutualInverses P) (hnn : NonnegativeCosts P) (hdv : DistinctVariables P)
    (hcb : CostBound P) (hrun : PatternDatabase P = Run.finished t)
    (hs : ∃ plan, IsOriginalPlan ops is_goal s plan) :
    ∃ d, lookup_distance P t s = some d ∧ d ≠ INT_MAX ∧
      ∀ plan, IsOriginalPlan ops is_goal s plan → d ≤ plan_cost plan := by
  obtain ⟨plan0, hplan0⟩ := hs
  obtain ⟨plan1, hplan1, _⟩ := abstract_plan habs hpos plan0 s hplan0
  obtain ⟨d, hd, hne, _, hmin⟩ :=
    table_at_solvable_state hmi hnn hdv hcb hrun ⟨plan1, hplan1⟩
  refine ⟨d, hd, hne, fun plan hplan => ?_⟩
  obtain ⟨plan2, hplan2, hle⟩ := abstract_plan habs hpos plan s hplan
  have := hmin plan2 hplan2
  omega

theorem original_is_abstraction (c : Int) :
    IsAbstraction binary_projection (original_operators c) original_goal := by
  constructor
  · intro s hs
    have : s = [1, 1, 1] := of_decide_eq_true hs
    subst this
    rfl
  · intro op hop s happ
    simp only [original_operators, List.mem_cons, List.mem_singleton,
      List.not_mem_nil, or_false] at hop
    rcases hop with rfl | rfl | rfl
    · right
      have h1 := happ _ (List.mem_cons_self _ _)
      match s, h1 with
      | a :: b :: x :: rest, _ => rfl
    · left
      have h1 := happ _ (List.mem_cons_self _ _)
      refine ⟨opA, by decide, le_refl _, ?_, ?_⟩
      · match s, h1 with
        | a :: rest, h1 =>
          intro e he
          simp only [opA, List.mem_singleton] at he
          subst he
          cases rest <;> exact h1
      · match s, h1 with
        | a :: rest, h1 => cases rest <;> rfl
    · left
      have h1 := happ _ (List.mem_cons_self _ _)
      refine ⟨opB, by decide, le_refl _, ?_, ?_⟩
      · match s, h1 with
        | a :: b :: rest, h1 =>
          intro e he
          simp only [opB, List.mem_singleton] at he
          subst he
          have h2 : b = 0 := by simpa [opB] using h1
          subst h2
          rfl
      · match s, h1 with
        | a :: b :: rest, h1 => rfl

/-- C7 fails as stated: with an original operator of cost `-5` that changes
only a variable outside the pattern, all preconditions of the claim hold, the
state `(0,1,0)` has an original plan of cost `-4`, and `lookup_distance`
returns 1. -/
theorem lookup_admissible_counterexample :
    IsAbstraction binary_projection (original_operators (-5)) original_goal ∧
    MutualInverses binary_projection ∧ NonnegativeCosts binary_projection ∧
    DistinctVariables binary_projection ∧ CostBound binary_projection ∧
    PatternDatabase binary_projection = Run.finished [3, 2, 1, 0] ∧
    IsOriginalPlan (original_operators (-5)) original_goal [0, 1, 0]
      [stutter_operator (-5), opA] ∧
    plan_cost [stutter_operator (-5), opA] = -4 ∧
    lookup_distance binary_projection [3, 2, 1, 0] [0, 1, 0] = some 1 ∧
    ¬ ((1 : Int) ≤ plan_cost [stutter_operator (-5), opA]) :=
  ⟨original_is_abstraction (-5), binary_mutual_inverses, binary_nonnegative_costs,
    binary_distinct_variables, binary_cost_bound, binary_table,
    ⟨by decide, [1, 1, 1], by decide, by decide⟩, by decide, by decide, by decide⟩

/-- C7, as amended, at the original task with a stutter operator of cost 5. -/
theorem lookup_admissible_witness :
    ∃ d, lookup_distance binary_projection [3, 2, 1, 0] [0, 1, 0] = some d ∧
      d ≠ INT_MAX ∧
      ∀ plan, IsOriginalPlan (original_operators 5) original_goal [0, 1, 0] plan →
        d ≤ plan_cost plan :=
  lookup_admissible binary_projection (original_operators 5) original_goal [3, 2, 1, 0]
    [0, 1, 0] (original_is_abstraction 5) (by decide) binary_mutual_inverses
    binary_nonnegative_costs binary_distinct_variables binary_cost_bound binary_table
    ⟨[stutter_operator 5, opA], by decide, [1, 1, 1], by decide, by decide⟩

/-! ## The claims at the concrete tasks -/

/-- C2 at the worked example: state `(0,0)` has the plan `opA, opB`. -/
theorem solvable_state_entry_witness :
    ∃ d, ([3, 2, 1, 0] : List Int)[binary_projection.rank_state [0, 0]]? = some d ∧
      d ≠ INT_MAX ∧
      (∃ plan, IsPlan binary_projection [0, 0] plan ∧ plan_cost plan = d) ∧
      ∀ plan, IsPlan binary_projection [0, 0] plan → d ≤ plan_cost plan :=
  solvable_state_entry binary_projection [3, 2, 1, 0] [0, 0] binary_mutual_inverses
    binary_nonnegative_costs binary_distinct_variables binary_cost_bound binary_table
    ⟨[opA, opB], by decide, by decide⟩

theorem one_operator_mutual_inverses : MutualInverses one_operator_projection :=
  binary_mutual_inverses

theorem one_operator_table :
    PatternDatabase one_operator_projection =
      Run.finished [INT_MAX, INT_MAX, 1, 0] := by
  decide

/-- Without `opB` no plan leads from a state with `v1 = 0` to the goal. -/
theorem one_operator_no_plan (plan : List TNFOperator) :
    ∀ a : Int, ¬ IsPlan one_operator_projection [a, 0] plan := by
  induction plan with
  | nil =>
    rintro a ⟨_, hexec⟩
    have h : [a, 0] = ([1, 1] : List Int) := Option.some.inj hexec
    simp at h
  | cons op rest ih =>
    rintro a ⟨hmem, hexec⟩
    have hop : op ∈ [opA] := hmem op (List.mem_cons_self _ _)
    simp only [List.mem_singleton] at hop
    subst hop
    unfold execute_plan at hexec
    split at hexec
    · rename_i happ
      obtain ⟨_, hres⟩ := opA_step happ
      rw [hres] at hexec
      exact ih 1 ⟨fun o ho => hmem o (List.mem_cons_of_mem _ ho), hexec⟩
    · simp at hexec

/-- C3 at the worked example without `opB`: state `(0,0)` has no plan. -/
theorem unreachable_keeps_sentinel_witness :
    ([INT_MAX, INT_MAX, 1, 0] : List Int)[one_operator_projection.rank_state [0, 0]]? =
      some INT_MAX ∧
    ∀ original_state, one_operator_projection.project_state original_state = [0, 0] →
      lookup_distance one_operator_projection [INT_MAX, INT_MAX, 1, 0] original_state =
        some INT_MAX :=
  unreachable_keeps_sentinel one_operator_projection [INT_MAX, INT_MAX, 1, 0] [0, 0]
    one_operator_mutual_inverses (by unfold DistinctVariables; decide) one_operator_table
    (by decide) (fun ⟨plan, hplan⟩ => one_operator_no_plan plan 0 hplan)

/-- C4 at the worked example: the slot of `(1,1)` holds 0. -/
theorem goal_distance_zero_witness :
    ([3, 2, 1, 0] : List Int)[binary_projection.rank_state
      binary_projection.projected_task.goal_state]? = some 0 :=
  goal_distance_zero binary_projection [3, 2, 1, 0] (by decide) binary_nonnegative_costs
    (by decide) binary_cost_bound binary_table

/-- C5 at the worked example: the goal state, with index 3, and `opA`. -/
theorem final_table_consistent_witness :
    ∃ di, ([3, 2, 1, 0] : List Int)[binary_projection.rank_state
        (regress_operator opA (binary_projection.unrank_state 3))]? = some di ∧
      di ≤ 0 + opA.cost :=
  final_table_consistent binary_projection [3, 2, 1, 0] 3 0 opA binary_nonnegative_costs
    binary_cost_bound binary_table (by decide) (by decide) (by decide) (by decide)

/-- C8 at the worked example. -/
theorem tie_breaking_independent_witness :
    (∀ c1 c2, CompleteRun binary_projection c1 → CompleteRun binary_projection c2 →
      c1.distances = c2.distances) ∧
    (∀ t, PatternDatabase binary_projection = Run.finished t →
      ∀ c, CompleteRun binary_projection c → c.distances = t) :=
  tie_breaking_independent binary_projection binary_nonnegative_costs binary_cost_bound

/-- C9 at the worked example: state `(0,0)`, with index 0 and distance 3. -/
theorem bellman_tight_witness :
    ∃ op j dj, op ∈ binary_projection.projected_task.operators ∧
      applicable op (binary_projection.unrank_state 0) ∧
      apply_operator op (binary_projection.unrank_state 0) =
        binary_projection.unrank_state j ∧
      ([3, 2, 1, 0] : List Int)[j]? = some dj ∧ dj ≠ INT_MAX ∧ 3 = dj + op.cost :=
  bellman_tight binary_projection [3, 2, 1, 0] 0 3 binary_mutual_inverses
    binary_nonnegative_costs binary_distinct_variables binary_cost_bound binary_table
    (by decide) (by decide) (by decide)

/-- C10 fails as stated: the two operators have non-negative costs that fit
into a 32-bit `int`, and the constructor leaves the overflowed sum
`-1073741824` in slot 0. -/
theorem slots_nonnegative_or_sentinel_counterexample :
    NonnegativeCosts overflow_projection ∧
    (∀ op ∈ overflow_projection.projected_task.operators, op.cost ≤ INT_MAX) ∧
    PatternDatabase overflow_projection =
      Run.finished [-1073741824, 1610612736, 0] ∧
    ([-1073741824, 1610612736, 0] : List Int)[0]? = some (-1073741824) ∧
    ¬ ((-1073741824 : Int) = INT_MAX ∨
      (0 ≤ (-1073741824 : Int) ∧ (-1073741824 : Int) < INT_MAX)) :=
  ⟨by unfold NonnegativeCosts; decide, by decide, by decide, by decide, by decide⟩

/-- C10, as amended, at the worked example: slot 0 holds 3. -/
theorem slots_nonnegative_or_sentinel_witness :
    ((3 : Int) = INT_MAX ∨ (0 ≤ (3 : Int) ∧ (3 : Int) < INT_MAX)) ∧
    ((3 : Int) ≠ INT_MAX →
      (0 = binary_projection.rank_state binary_projection.projected_task.goal_state ∧
        (3 : Int) = 0) ∨
      ∃ j op dj, Edge binary_projection j op 0 ∧
        ([3, 2, 1, 0] : List Int)[j]? = some dj ∧ 0 ≤ dj ∧ 0 ≤ op.cost ∧
        dj + op.cost < INT_MAX ∧ 3 = dj + op.cost) :=
  slots_nonnegative_or_sentinel binary_projection [3, 2, 1, 0] 0 3
    binary_nonnegative_costs binary_cost_bound binary_table (by decide)

/-! ## Regression and forward application -/

/-- C11 (regression inverts forward application): for an operator whose
entries have pairwise distinct variable ids and all states `s` and `t`, the
operator is applicable in `s` with result `t` iff `t` passes the test of the
constructor and the predecessor state the constructor builds from `t` is `s`. -/
theorem regression_inverts_application (op : TNFOperator) (s t : TNFState)
    (hnd : (op.entries.map (fun e => e.variable_id)).Nodup) :
    (applicable op s ∧ apply_operator op s = t) ↔
    (operator_can_reach_state t op.entries = some true ∧
      predecessor_state t op.entries = some s) := by
  constructor
  · rintro ⟨happ, rfl⟩
    exact regress_apply hnd happ
  · rintro ⟨htest, hpred⟩
    exact apply_regress hnd htest hpred

/-- C11 at `opA` of the worked example, applied in `(0,1)` with result `(1,1)`. -/
theorem regression_inverts_application_witness :
    (applicable opA [0, 1] ∧ apply_operator opA [0, 1] = [1, 1]) ↔
    (operator_can_reach_state [1, 1] opA.entries = some true ∧
      predecessor_state [1, 1] opA.entries = some [0, 1]) :=
  regression_inverts_application opA [0, 1] [1, 1] (by decide)

/-! ## The writes of the loop -/

theorem write_trace_zero (P : Projection) (c : Config) : write_trace P 0 c = [] := by
  unfold write_trace
  split <;> rfl

theorem write_trace_empty {P : Projection} {fuel : Nat} {c : Config}
    (hq : queue_top c.queue = none) : write_trace P fuel c = [] := by
  unfold write_trace
  rw [hq]

theorem write_trace_succ {P : Projection} {fuel : Nat} {c : Config} {e : QueueEntry}
    (hq : queue_top c.queue = some e) :
    write_trace P (fuel + 1) c =
      iteration_writes c e ++
        (match process_entry P c e with
         | none => []
         | some c1 => write_trace P fuel c1) := by
  conv_lhs => unfold write_trace
  simp only [hq]

/-- The three ways an iteration can go: the slot of the entry lies outside the
table; line 53 discards the entry; or line 56 writes it and the operators are
expanded. -/
theorem iteration_cases (P : Projection) (c : Config) (e : QueueEntry) :
    (c.distances[e.2]? = none ∧ iteration_writes c e = [] ∧ process_entry P c e = none) ∨
    (∃ stored, c.distances[e.2]? = some stored ∧ stored ≤ e.1 ∧
      iteration_writes c e = [] ∧
      process_entry P c e = some { distances := c.distances, queue := c.queue.erase e }) ∨
    (∃ stored, c.distances[e.2]? = some stored ∧ e.1 < stored ∧
      iteration_writes c e = [{ index := e.2, old_value := stored, new_value := e.1 }] ∧
      (process_entry P c e = none ∨
        ∃ q1, process_entry P c e =
          some { distances := c.distances.set e.2 e.1, queue := q1 })) := by
  cases hs : c.distances[e.2]? with
  | none =>
    refine Or.inl ⟨rfl, ?_, ?_⟩
    · unfold iteration_writes
      simp only [hs]
    · unfold process_entry
      simp only [hs]
  | some stored =>
    right
    by_cases hge : e.1 ≥ stored
    · left
      refine ⟨stored, rfl, hge, ?_, ?_⟩
      · unfold iteration_writes
        simp only [hs, if_pos hge]
      · unfold process_entry
        simp only [hs, if_pos hge]
    · right
      refine ⟨stored, rfl, by omega, ?_, ?_⟩
      · unfold iteration_writes
        simp only [hs, if_neg hge]
      · unfold process_entry
        simp only [hs, if_neg hge]
        cases expand_operators P (c.distances.set e.2 e.1) e.2 e.1
            P.projected_task.operators (c.queue.erase e) with
        | none => exact Or.inl rfl
        | some q1 => exact Or.inr ⟨q1, rfl⟩

theorem Inv.write_sentinel {P : Projection} {C : Int} {K : Nat} {c : Config}
    (hinv : Inv P C K c) {e : QueueEntry} {stored : Int} (he : e ∈ c.queue)
    (hs : c.distances[e.2]? = some stored) (hlt : e.1 < stored) : stored = INT_MAX := by
  by_contra hne
  have := hinv.mono e.2 stored ⟨hs, hne⟩ e he
  omega

/-- An iteration leaves the written slots as they are. -/
theorem Inv.process_keeps {P : Projection} {C : Int} {K : Nat} {c c1 : Config}
    (hinv : Inv P C K c) {e : QueueEntry} (he : e ∈ c.queue)
    (hproc : process_entry P c e = some c1) :
    ∀ i d, Finite c.distances i d → Finite c1.distances i d := by
  obtain ⟨stored, hs, ⟨hle, rfl⟩ | ⟨hlt, hd, hex⟩⟩ := process_entry_cases hproc
  · exact fun i d h => h
  · intro i d h
    rw [hd]
    have := hinv.write_sentinel he hs hlt
    subst this
    exact Finite_set_of_sentinel hs h

theorem Inv_steps_from {P : Projection} {C : Int} {c c1 : Config}
    (hc : CostsWithin P C) (hinv : ∃ K, Inv P C K c) (hsteps : Steps P c c1) :
    (∃ K1, Inv P C K1 c1) ∧
    ∀ i d, Finite c.distances i d → Finite c1.distances i d := by
  induction hsteps with
  | refl => exact ⟨hinv, fun i d h => h⟩
  | tail _ hstep ih =>
    obtain ⟨⟨K1, hinv1⟩, hkeep⟩ := ih
    refine ⟨hinv1.step hc hstep, fun i d h => ?_⟩
    obtain ⟨e, he, _, hproc⟩ := hstep
    exact hinv1.process_keeps he hproc i d (hkeep i d h)

/-- What holds for every later write of a run that starts in a state with the
invariant: its slot still holds the sentinel, and its value is not the
sentinel and not below any value already written. -/
theorem write_trace_sound {P : Projection} {C : Int} (hc : CostsWithin P C)
    (fuel : Nat) : ∀ c : Config, (∃ K, Inv P C K c) → ∀ w ∈ write_trace P fuel c,
      c.distances[w.index]? = some INT_MAX ∧ w.old_value = INT_MAX ∧
      w.new_value ≠ INT_MAX ∧ ∀ i d, Finite c.distances i d → d ≤ w.new_value := by
  induction fuel with
  | zero =>
    intro c _ w hw
    rw [write_trace_zero] at hw
    simp at hw
  | succ n ih =>
    intro c hinv w hw
    obtain ⟨K, hinv⟩ := hinv
    cases hq : queue_top c.queue with
    | none =>
      rw [write_trace_empty hq] at hw
      simp at hw
    | some e =>
      have he := queue_top_mem hq
      rw [write_trace_succ hq] at hw
      rcases iteration_cases P c e with
        ⟨_, hiw, hproc⟩ | ⟨stored, hs, hle, hiw, hproc⟩ | ⟨stored, hs, hlt, hiw, hproc⟩
      · rw [hiw, hproc] at hw
        simp at hw
      · rw [hiw, hproc] at hw
        simp only [List.nil_append] at hw
        have hstep : Step P c { distances := c.distances, queue := c.queue.erase e } :=
          ⟨e, he, queue_top_least hq, hproc⟩
        exact ih _ (hinv.step hc hstep) w hw
      · have hsent := hinv.write_sentinel he hs hlt
        subst hsent
        have hne : e.1 ≠ INT_MAX := fun h => by omega
        rw [hiw] at hw
        rcases List.mem_append.1 hw with h1 | h2
        · simp only [List.mem_singleton] at h1
          subst h1
          exact ⟨hs, rfl, hne, fun i d hF => hinv.mono i d hF e he⟩
        · rcases hproc with hproc | ⟨q1, hproc⟩
          · rw [hproc] at h2
            simp at h2
          · rw [hproc] at h2
            simp only at h2
            have hstep : Step P c { distances := c.distances.set e.2 e.1, queue := q1 } :=
              ⟨e, he, queue_top_least hq, hproc⟩
            obtain ⟨h3, h4, h5, h6⟩ := ih _ (hinv.step hc hstep) w h2
            simp only at h3 h6
            refine ⟨?_, h4, h5, fun i d hF => h6 i d (hinv.process_keeps he hproc i d hF)⟩
            by_cases hwi : w.index = e.2
            · rw [hwi, List.getElem?_set_self (getElem?_lt_length hs)] at h3
              exact absurd (Option.some.inj h3) hne
            · rw [List.getElem?_set_ne (Ne.symm hwi)] at h3
              exact h3

/-- Later writes go to other slots and do not write smaller values. -/
theorem write_trace_pairwise {P : Projection} {C : Int} (hc : CostsWithin P C)
    (fuel : Nat) : ∀ c : Config, (∃ K, Inv P C K c) →
      (write_trace P fuel c).Pairwise
        (fun a b => a.new_value ≤ b.new_value ∧ a.index ≠ b.index) := by
  induction fuel with
  | zero =>
    intro c _
    rw [write_trace_zero]
    exact List.Pairwise.nil
  | succ n ih =>
    intro c hinv
    obtain ⟨K, hinv⟩ := hinv
    cases hq : queue_top c.queue with
    | none =>
      rw [write_trace_empty hq]
      exact List.Pairwise.nil
    | some e =>
      have he := queue_top_mem hq
      rw [write_trace_succ hq]
      rcases iteration_cases P c e with
        ⟨_, hiw, hproc⟩ | ⟨stored, hs, hle, hiw, hproc⟩ | ⟨stored, hs, hlt, hiw, hproc⟩
      · rw [hiw, hproc]
        exact List.Pairwise.nil
      · rw [hiw, hproc]
        simp only [List.nil_append]
        exact ih _ (hinv.step hc ⟨e, he, queue_top_least hq, hproc⟩)
      · have hsent := hinv.write_sentinel he hs hlt
        subst hsent
        have hne : e.1 ≠ INT_MAX := fun h => by omega
        rw [hiw]
        rcases hproc with hproc | ⟨q1, hproc⟩
        · rw [hproc]
          simp
        · rw [hproc]
          simp only [List.singleton_append]
          have hinv1 := hinv.step hc ⟨e, he, queue_top_least hq, hproc⟩
          refine List.Pairwise.cons (fun b hb => ?_) (ih _ hinv1)
          obtain ⟨h3, _, _, h6⟩ := write_trace_sound hc n _ hinv1 b hb
          simp only at h3 h6
          have hFe : Finite (c.distances.set e.2 e.1) e.2 e.1 :=
            (Finite_set_self (getElem?_lt_length hs)).2 ⟨rfl, hne⟩
          refine ⟨h6 e.2 e.1 hFe, fun heq => ?_⟩
          simp only at heq
          rw [← heq, hFe.1] at h3
          exact hne (Option.some.inj h3)

/-- A run writes at most as many slots as hold the sentinel. -/
theorem write_trace_length {P : Projection} {C : Int} (hc : CostsWithin P C)
    (fuel : Nat) : ∀ c : Config, (∃ K, Inv P C K c) →
      (write_trace P fuel c).length ≤ c.distances.count INT_MAX := by
  induction fuel with
  | zero =>
    intro c _
    rw [write_trace_zero]
    simp
  | succ n ih =>
    intro c hinv
    obtain ⟨K, hinv⟩ := hinv
    cases hq : queue_top c.queue with
    | none =>
      rw [write_trace_empty hq]
      simp
    | some e =>
      have he := queue_top_mem hq
      rw [write_trace_succ hq]
      rcases iteration_cases P c e with
        ⟨_, hiw, hproc⟩ | ⟨stored, hs, hle, hiw, hproc⟩ | ⟨stored, hs, hlt, hiw, hproc⟩
      · rw [hiw, hproc]
        simp
      · rw [hiw, hproc]
        simp only [List.nil_append]
        exact ih _ (hinv.step hc ⟨e, he, queue_top_least hq, hproc⟩)
      · have hsent := hinv.write_sentinel he hs hlt
        subst hsent
        have hne : e.1 ≠ INT_MAX := fun h => by omega
        have hcount := count_set_sentinel hs hne
        rw [hiw]
        rcases hproc with hproc | ⟨q1, hproc⟩
        · rw [hproc]
          simp only [List.append_nil, List.length_singleton]
          omega
        · rw [hproc]
          have := ih _ (hinv.step hc ⟨e, he, queue_top_least hq, hproc⟩)
          simp only [List.singleton_append, List.length_cons] at this ⊢
          omega

/-- The value of every write of a finished run is the value of its slot in the
final table. -/
theorem write_trace_final {P : Projection} {C : Int} (hc : CostsWithin P C)
    {t : List Int} (fuel : Nat) : ∀ c : Config, (∃ K, Inv P C K c) →
      run_loop P fuel c = Run.finished t →
      ∀ w ∈ write_trace P fuel c, t[w.index]? = some w.new_value := by
  induction fuel with
  | zero =>
    intro c _ _ w hw
    rw [write_trace_zero] at hw
    simp at hw
  | succ n ih =>
    intro c hinv hrun w hw
    obtain ⟨K, hinv⟩ := hinv
    cases hq : queue_top c.queue with
    | none =>
      rw [write_trace_empty hq] at hw
      simp at hw
    | some e =>
      have he := queue_top_mem hq
      rw [write_trace_succ hq] at hw
      unfold run_loop at hrun
      simp only [hq] at hrun
      cases hproc : process_entry P c e with
      | none =>
        rw [hproc] at hrun
        simp at hrun
      | some c1 =>
        rw [hproc] at hrun hw
        simp only at hrun hw
        have hinv1 := hinv.step hc ⟨e, he, queue_top_least hq, hproc⟩
        rcases List.mem_append.1 hw with h1 | h2
        · rcases iteration_cases P c e with
            ⟨_, hiw, _⟩ | ⟨stored, hs, hle, hiw, _⟩ | ⟨stored, hs, hlt, hiw, hproc2⟩
          · rw [hiw] at h1
            simp at h1
          · rw [hiw] at h1
            simp at h1
          · have hsent := hinv.write_sentinel he hs hlt
            subst hsent
            have hne : e.1 ≠ INT_MAX := fun h => by omega
            rw [hiw] at h1
            simp only [List.mem_singleton] at h1
            subst h1
            rcases hproc2 with hproc2 | ⟨q1, hproc2⟩
            · rw [hproc2] at hproc
              simp at hproc
            · rw [hproc2] at hproc
              have hc1 := Option.some.inj hproc
              subst hc1
              obtain ⟨cf, hsteps, _, hcf⟩ := run_loop_steps hrun
              have hFe : Finite (c.distances.set e.2 e.1) e.2 e.1 :=
                (Finite_set_self (getElem?_lt_length hs)).2 ⟨rfl, hne⟩
              have := (Inv_steps_from hc hinv1 hsteps).2 e.2 e.1 hFe
              rw [hcf] at this
              exact this.1
        · exact ih c1 hinv1 hrun w h2

/-- C12 (non-decreasing finalization order): for non-negative costs with
`num_states` times any cost below `2^31 - 1`, the values that the run of the
constructor writes at line 56 are non-decreasing in the order of the writes. -/
theorem finalization_order (P : Projection) (hnn : NonnegativeCosts P)
    (hcb : CostBound P) :
    (constructor_writes P).Pairwise (fun a b => a.new_value ≤ b.new_value) := by
  obtain ⟨C, hc⟩ := costs_within hnn hcb
  exact (write_trace_pairwise hc _ _ ⟨0, Inv.init P C⟩).imp (fun h => h.1)

/-- C12 at the worked example, where the writes are 0, 1, 2, 3. -/
theorem finalization_order_witness :
    (constructor_writes binary_projection).Pairwise
      (fun a b => a.new_value ≤ b.new_value) :=
  finalization_order binary_projection binary_nonnegative_costs binary_cost_bound

/-- C13 (each slot is written at most once): for non-negative costs with
`num_states` times any cost below `2^31 - 1`, every write of line 56 in the
run of the constructor replaces the sentinel by a value that is not the
sentinel, no two writes go to the same slot, there are at most `num_states`
writes (each of them followed by the one expansion of its state), the value of
a write is the value of its slot in the final table, and in every state of the
loop an entry whose slot is already finite is discarded by line 53. -/
theorem slots_written_once (P : Projection) (hnn : NonnegativeCosts P)
    (hcb : CostBound P) :
    (∀ w ∈ constructor_writes P, w.old_value = INT_MAX ∧ w.new_value ≠ INT_MAX) ∧
    ((constructor_writes P).map (fun w => w.index)).Nodup ∧
    (constructor_writes P).length ≤ P.projected_task.num_states ∧
    (∀ t, PatternDatabase P = Run.finished t →
      ∀ w ∈ constructor_writes P, t[w.index]? = some w.new_value) ∧
    (∀ c, Steps P (initial_config P) c → ∀ e ∈ c.queue, ∀ x,
      Finite c.distances e.2 x →
      iteration_writes c e = [] ∧
      process_entry P c e =
        some { distances := c.distances, queue := c.queue.erase e }) := by
  obtain ⟨C, hc⟩ := costs_within hnn hcb
  have hinit : ∃ K, Inv P C K (initial_config P) := ⟨0, Inv.init P C⟩
  refine ⟨?_, ?_, ?_, ?_, ?_⟩
  · intro w hw
    obtain ⟨_, h1, h2, _⟩ := write_trace_sound hc _ _ hinit w hw
    exact ⟨h1, h2⟩
  · rw [List.Nodup, List.pairwise_map]
    exact (write_trace_pairwise hc _ _ hinit).imp (fun h => h.2)
  · have h1 := write_trace_length hc (construction_fuel P) _ hinit
    have h2 := List.count_le_length INT_MAX (initial_config P).distances
    have h3 := (Inv.init P C).len
    unfold constructor_writes
    omega
  · intro t hrun w hw
    exact write_trace_final hc _ _ hinit hrun w hw
  · intro c hsteps e he x hF
    obtain ⟨K, hinv⟩ := Inv.steps hc hsteps
    have hle := hinv.mono e.2 x hF e he
    rcases iteration_cases P c e with
      ⟨hs, _, _⟩ | ⟨stored, hs, _, hiw, hproc⟩ | ⟨stored, hs, hlt, _, _⟩
    · rw [hF.1] at hs
      simp at hs
    · exact ⟨hiw, hproc⟩
    · rw [hF.1] at hs
      have := Option.some.inj hs
      omega

/-- C13 at the worked example. -/
theorem slots_written_once_witness :
    (∀ w ∈ constructor_writes binary_projection,
      w.old_value = INT_MAX ∧ w.new_value ≠ INT_MAX) ∧
    ((constructor_writes binary_projection).map (fun w => w.index)).Nodup ∧
    (constructor_writes binary_projection).length ≤
      binary_projection.projected_task.num_states ∧
    (∀ t, PatternDatabase binary_projection = Run.finished t →
      ∀ w ∈ constructor_writes binary_projection, t[w.index]? = some w.new_value) ∧
    (∀ c, Steps binary_projection (initial_config binary_projection) c →
      ∀ e ∈ c.queue, ∀ x, Finite c.distances e.2 x →
      iteration_writes c e = [] ∧
      process_entry binary_projection c e =
        some { distances := c.distances, queue := c.queue.erase e }) :=
  slots_written_once binary_projection binary_nonnegative_costs binary_cost_bound

/-- The writes of the constructor at the worked example. -/
theorem binary_writes :
    constructor_writes binary_projection =
      [{ index := 3, old_value := INT_MAX, new_value := 0 },
       { index := 2, old_value := INT_MAX, new_value := 1 },
       { index := 1, old_value := INT_MAX, new_value := 2 },
       { index := 0, old_value := INT_MAX, new_value := 3 }] := by
  decide

/-! ## Termination of the loop -/

/-- A run that ends within its bound on the iterations is the same run under
every larger bound. -/
theorem run_loop_more_fuel {P : Projection} (fuel : Nat) :
    ∀ c : Config, run_loop P fuel c ≠ Run.timeout →
      ∀ k, run_loop P (fuel + k) c = run_loop P fuel c := by
  induction fuel with
  | zero =>
    intro c hne k
    cases hq : queue_top c.queue with
    | none =>
      unfold run_loop
      simp only [hq]
    | some e =>
      exfalso
      apply hne
      unfold run_loop
      simp only [hq]
  | succ n ih =>
    intro c hne k
    have hk : n + 1 + k = (n + k) + 1 := by omega
    rw [hk]
    cases hq : queue_top c.queue with
    | none =>
      unfold run_loop
      simp only [hq]
    | some e =>
      unfold run_loop at hne ⊢
      simp only [hq] at hne ⊢
      cases hproc : process_entry P c e with
      | none => rfl
      | some c1 =>
        rw [hproc] at hne
        simp only at hne ⊢
        exact ih c1 hne k

/-- C14 (termination): the loop of the constructor ends for every task, so in
particular for non-negative costs and a `rank_state` that stays inside the
table: the run does not reach the bound on its iterations, and under every
larger bound it is the same run. -/
theorem constructor_terminates (P : Projection) :
    PatternDatabase P ≠ Run.timeout ∧
    ∀ fuel, construction_fuel P ≤ fuel →
      run_loop P fuel (initial_config P) = PatternDatabase P := by
  refine ⟨PatternDatabase_ne_timeout P, fun fuel hf => ?_⟩
  obtain ⟨k, rfl⟩ := Nat.exists_eq_add_of_le hf
  exact run_loop_more_fuel _ _ (PatternDatabase_ne_timeout P) k

/-! ## The sums of line 78 -/

theorem sum_trace_zero (P : Projection) (c : Config) : sum_trace P 0 c = [] := by
  unfold sum_trace
  split <;> rfl

theorem sum_trace_empty {P : Projection} {fuel : Nat} {c : Config}
    (hq : queue_top c.queue = none) : sum_trace P fuel c = [] := by
  unfold sum_trace
  rw [hq]

theorem sum_trace_succ {P : Projection} {fuel : Nat} {c : Config} {e : QueueEntry}
    (hq : queue_top c.queue = some e) :
    sum_trace P (fuel + 1) c =
      iteration_sums P c e ++
        (match process_entry P c e with
         | none => []
         | some c1 => sum_trace P fuel c1) := by
  conv_lhs => unfold sum_trace
  simp only [hq]

/-- Every sum in the loop over the operators has the distance of the expanded
state as its first addend, and the slot of that state is as the loop got it. -/
theorem expand_sums_mem {P : Projection} {t : List Int} {i : Nat} {d : Int}
    (ops : List TNFOperator) : ∀ (q : List QueueEntry), ∀ ev ∈ expand_sums P t i d ops q,
      ev.current_state_distance = d ∧ ev.slot = t[i]? := by
  induction ops with
  | nil =>
    intro q ev hev
    simp [expand_sums] at hev
  | cons op rest ih =>
    intro q ev hev
    unfold expand_sums at hev
    rcases List.mem_append.1 hev with h1 | h2
    · unfold operator_sums at h1
      split at h1
      · split at h1
        · simp at h1
        · simp only [List.mem_singleton] at h1
          subst h1
          exact ⟨rfl, rfl⟩
      · simp at h1
    · split at h2
      · simp at h2
      · exact ih _ ev h2

theorem InRange_initial (P : Projection) : InRange (initial_config P) := by
  unfold initial_config
  constructor
  · intro x hx
    have := List.eq_of_mem_replicate hx
    subst this
    decide
  · intro e he
    simp only [List.mem_singleton] at he
    subst he
    show (-2147483648 : Int) ≤ 0 ∧ (0 : Int) ≤ INT_MAX
    decide

/-- Every sum of a run from a state with 32-bit distances adds to a distance
below the sentinel, which is the value of the slot of the expanded state. -/
theorem sum_trace_sound {P : Projection} (fuel : Nat) :
    ∀ c : Config, InRange c → ∀ ev ∈ sum_trace P fuel c,
      ev.current_state_distance < INT_MAX ∧
      ev.slot = some ev.current_state_distance := by
  induction fuel with
  | zero =>
    intro c _ ev hev
    rw [sum_trace_zero] at hev
    simp at hev
  | succ n ih =>
    intro c hr ev hev
    cases hq : queue_top c.queue with
    | none =>
      rw [sum_trace_empty hq] at hev
      simp at hev
    | some e =>
      have he := queue_top_mem hq
      rw [sum_trace_succ hq] at hev
      rcases List.mem_append.1 hev with h1 | h2
      · unfold iteration_sums at h1
        split at h1
        · simp at h1
        · rename_i stored hs
          split at h1
          · simp at h1
          · rename_i hge
            obtain ⟨h3, h4⟩ := expand_sums_mem _ _ ev h1
            have hst := (hr.1 stored (List.getElem?_mem hs)).2
            rw [h3, h4, List.getElem?_set_self (getElem?_lt_length hs)]
            exact ⟨by omega, rfl⟩
      · cases hproc : process_entry P c e with
        | none =>
          rw [hproc] at h2
          simp at h2
        | some c1 =>
          rw [hproc] at h2
          exact ih c1 (InRange_process hr he hproc).1 ev h2

/-- C15 (the sentinel is never an addend): for every task and every run of the
constructor, whatever the bound on its iterations, every evaluation of the sum
of line 78 has a `current_state_distance` below `numeric_limits<int>::max()`
that equals the value of `distances[current_state_index]`, the value just
written at line 56. -/
theorem sentinel_never_addend (P : Projection) (fuel : Nat) :
    ∀ ev ∈ sum_trace P fuel (initial_config P),
      ev.current_state_distance < INT_MAX ∧
      ev.slot = some ev.current_state_distance :=
  sum_trace_sound fuel _ (InRange_initial P)

/-- The sums the constructor evaluates at the worked example. -/
theorem binary_sums :
    sum_trace binary_projection (construction_fuel binary_projection)
        (initial_config binary_projection) =
      [{ current_state_distance := 0, cost := 1, slot := some 0 },
       { current_state_distance := 0, cost := 2, slot := some 0 },
       { current_state_distance := 1, cost := 2, slot := some 1 },
       { current_state_distance := 2, cost := 1, slot := some 2 }] := by
  decide

/-! ## Accesses inside the vectors -/

theorem in_domain_length {domains : List Nat} {s : TNFState}
    (h : in_domain domains s = true) : s.length = domains.length := by
  induction domains generalizing s with
  | nil =>
    cases s with
    | nil => rfl
    | cons v vs => simp [in_domain] at h
  | cons m ms ih =>
    cases s with
    | nil => simp [in_domain] at h
    | cons v vs =>
      simp only [in_domain, Bool.and_eq_true] at h
      simp only [List.length_cons, ih h.2]

theorem value_in_domain_lt {domains : List Nat} {k : Nat} {v : Int}
    (h : value_in_domain domains k v) : k < domains.length := by
  obtain ⟨size, hsz, _⟩ := h
  rcases List.getElem?_eq_some.1 hsz with ⟨hk, _⟩
  exact hk

theorem in_domain_set {domains : List Nat} {s : TNFState} {k : Nat} {v : Int}
    (h : in_domain domains s = true) (hv : value_in_domain domains k v) :
    in_domain domains (s.set k v) = true := by
  induction domains generalizing s k with
  | nil =>
    have := value_in_domain_lt hv
    simp at this
  | cons m ms ih =>
    cases s with
    | nil => simp [in_domain] at h
    | cons x xs =>
      simp only [in_domain, Bool.and_eq_true] at h
      obtain ⟨size, hsz, h0, h1⟩ := hv
      cases k with
      | zero =>
        simp only [List.getElem?_cons_zero, Option.some.injEq] at hsz
        subst hsz
        simp only [List.set_cons_zero, in_domain, Bool.and_eq_true]
        exact ⟨decide_eq_true ⟨h0, h1⟩, h.2⟩
      | succ j =>
        simp only [List.getElem?_cons_succ] at hsz
        simp only [List.set_cons_succ, in_domain, Bool.and_eq_true]
        exact ⟨h.1, ih h.2 ⟨size, hsz, h0, h1⟩⟩

theorem in_domain_write_entries {domains : List Nat} (f : TNFOperatorEntry → Int)
    (es : List TNFOperatorEntry) : ∀ s : TNFState, in_domain domains s = true →
      (∀ e ∈ es, value_in_domain domains e.variable_id (f e)) →
      in_domain domains (write_entries f s es) = true := by
  induction es with
  | nil => exact fun s h _ => h
  | cons e rest ih =>
    intro s h hv
    unfold write_entries
    exact ih _ (in_domain_set h (hv e (List.mem_cons_self _ _)))
      (fun e1 h1 => hv e1 (List.mem_cons_of_mem _ h1))

theorem operator_can_reach_state_some {s : TNFState} (es : List TNFOperatorEntry)
    (h : ∀ e ∈ es, e.variable_id < s.length) :
    ∃ b, operator_can_reach_state s es = some b := by
  induction es with
  | nil => exact ⟨true, rfl⟩
  | cons e rest ih =>
    unfold operator_can_reach_state
    rw [List.getElem?_eq_getElem (h e (List.mem_cons_self _ _))]
    simp only
    split
    · exact ⟨false, rfl⟩
    · exact ih (fun e1 h1 => h e1 (List.mem_cons_of_mem _ h1))

/-- A task is free of faults when its states and operator entries lie in the
domains of the pattern variables. -/
theorem fault_free_of_domains {P : Projection} {domains : List Nat}
    (hun : ∀ i, i < P.projected_task.num_states →
      in_domain domains (P.unrank_state i) = true)
    (hrk : ∀ s, in_domain domains s = true →
      P.rank_state s < P.projected_task.num_states)
    (hgoal : in_domain domains P.projected_task.goal_state = true)
    (hent : EntriesInDomain P domains) : FaultFree P := by
  refine ⟨hrk _ hgoal, fun i hi op hop => ?_⟩
  have hdom := hun i hi
  have hlen := in_domain_length hdom
  constructor
  · apply operator_can_reach_state_some
    intro e he
    rw [hlen]
    exact value_in_domain_lt (hent op hop e he).1
  · intro pred _ hpred
    have := predecessor_state_eq hpred
    subst this
    apply hrk
    exact in_domain_write_entries _ _ _ hdom (fun e he => (hent op hop e he).1)

/-- C16 (in-bounds access): let `num_states ≥ 1`, let `unrank_state i` be
in-domain for every index of the table, let `rank_state` map in-domain states
into the table, let the goal state be in-domain, and let every operator entry
name a pattern variable and have its two values in the domain of it.  Then the
constructor finishes without an access outside a vector, its table has exactly
`num_states` slots, and `lookup_distance` reads inside the table for every
state whose projection is in-domain. -/
theorem accesses_in_bounds (P : Projection) (domains : List Nat)
    (_hn : 1 ≤ P.projected_task.num_states)
    (hun : ∀ i, i < P.projected_task.num_states →
      in_domain domains (P.unrank_state i) = true)
    (hrk : ∀ s, in_domain domains s = true →
      P.rank_state s < P.projected_task.num_states)
    (hgoal : in_domain domains P.projected_task.goal_state = true)
    (hent : EntriesInDomain P domains) :
    ∃ t, PatternDatabase P = Run.finished t ∧
      t.length = P.projected_task.num_states ∧
      ∀ original_state, in_domain domains (P.project_state original_state) = true →
        ∃ d, lookup_distance P t original_state = some d := by
  obtain ⟨t, hrun⟩ := PatternDatabase_finishes (fault_free_of_domains hun hrk hgoal hent)
  have hlen : t.length = P.projected_task.num_states :=
    (InvReach.run (PatternDatabase_complete_run hrun).1).len
  refine ⟨t, hrun, hlen, fun original_state hdom => ?_⟩
  unfold lookup_distance
  have hlt : P.rank_state (P.project_state original_state) < t.length := by
    rw [hlen]
    exact hrk _ hdom
  exact ⟨_, List.getElem?_eq_getElem hlt⟩

theorem binary_rank_in_domain (s : TNFState) (h : in_domain [2, 2] s = true) :
    binary_projection.rank_state s < binary_projection.projected_task.num_states := by
  show binary_rank s < 4
  match s, h with
  | [a, b], h =>
    simp only [in_domain, Bool.and_eq_true, decide_eq_true_eq, Bool.and_true] at h
    have ha : a = 0 ∨ a = 1 := by omega
    have hb : b = 0 ∨ b = 1 := by omega
    rcases ha with rfl | rfl <;> rcases hb with rfl | rfl <;> decide
  | [_], h => simp [in_domain] at h
  | _ :: _ :: _ :: _, h => simp [in_domain] at h

theorem binary_entries_in_domain : EntriesInDomain binary_projection [2, 2] := by
  intro op hop e he
  have hop2 : op = opA ∨ op = opB := by simpa [binary_projection, worked_example_task] using hop
  rcases hop2 with rfl | rfl
  · simp only [opA, List.mem_singleton] at he
    subst he
    exact ⟨⟨2, rfl, by decide, by decide⟩, ⟨2, rfl, by decide, by decide⟩⟩
  · simp only [opB, List.mem_singleton] at he
    subst he
    exact ⟨⟨2, rfl, by decide, by decide⟩, ⟨2, rfl, by decide, by decide⟩⟩

/-- C16 at the worked example with the domains `{0,1}` of its two variables. -/
theorem accesses_in_bounds_witness :
    ∃ t, PatternDatabase binary_projection = Run.finished t ∧
      t.length = binary_projection.projected_task.num_states ∧
      ∀ original_state,
        in_domain [2, 2] (binary_projection.project_state original_state) = true →
        ∃ d, lookup_distance binary_projection t original_state = some d :=
  accesses_in_bounds binary_projection [2, 2] (by decide)
    (fun i hi => by
      have hi4 : i < 4 := hi
      interval_cases i <;> decide)
    binary_rank_in_domain (by decide) binary_entries_in_domain

/-! ## Termination and the sums at the worked example -/

/-- C14 at the worked example. -/
theorem constructor_terminates_witness :
    PatternDatabase binary_projection ≠ Run.timeout ∧
    ∀ fuel, construction_fuel binary_projection ≤ fuel →
      run_loop binary_projection fuel (initial_config binary_projection) =
        PatternDatabase binary_projection :=
  constructor_terminates binary_projection

/-- C15 at the worked example: the sum `1 + 2` evaluated when state `(0,1)`,
written with distance 1, is expanded with `opB`. -/
theorem sentinel_never_addend_witness :
    ({ current_state_distance := 1, cost := 2, slot := some 1 } :
        SumEvent).current_state_distance < INT_MAX ∧
    ({ current_state_distance := 1, cost := 2, slot := some 1 } : SumEvent).slot =
      some ({ current_state_distance := 1, cost := 2, slot := some 1 } :
        SumEvent).current_state_distance :=
  sentinel_never_addend binary_projection (construction_fuel binary_projection)
    { current_state_distance := 1, cost := 2, slot := some 1 }
    (by rw [binary_sums]; decide)

end planopt_heuristics
